import Mathlib

/-!
Verification of the flow-execution engine of the agentic flow orchestrator
(src/backend/main.py).  The engine is shallowly embedded: Python dicts become
ordered association lists (insertion-ordered, unique keys when built by
`upsert` from the empty list), Python values flowing between nodes become the
inductive type `Value`, raising code returns `Except`, and the two external
capabilities (the OpenAI client used by `LLMNode.execute` and the sandboxed
`exec` used by `FunctionNode.execute`) are parameters of the environment
`Env`, as they are I/O respectively dynamic code execution.
-/

/-- A Python runtime value as far as the engine manipulates one: a string or a
string-keyed dict.  Node outputs are dicts; the per-node primary output cached
in `node_outputs` is an arbitrary `Value`. -/
inductive Value where
  | str : String → Value
  | dict : List (String × Value) → Value

/-- A Python dict with string keys, modelled as an insertion-ordered
association list. -/
abbrev Dict := List (String × Value)

/-- Python `d.get(k)` / `d[k]` as an option: the value of the first entry with
the given key. -/
def lookupOpt (m : List (String × α)) (k : String) : Option α :=
  match m with
  | [] => none
  | (k₁, v) :: rest => if k₁ = k then some v else lookupOpt rest k

/-- Python `d.get(k, dflt)`. -/
def lookupD (m : List (String × α)) (k : String) (dflt : α) : α :=
  match lookupOpt m k with
  | some v => v
  | none => dflt

/-- Python `d[k] = v` on an insertion-ordered dict: update the existing entry
in place, or append a fresh entry at the end. -/
def upsert (m : List (String × α)) (k : String) (v : α) : List (String × α) :=
  match m with
  | [] => [(k, v)]
  | (k₁, v₁) :: rest => if k₁ = k then (k, v) :: rest else (k₁, v₁) :: upsert rest k v

theorem lookupOpt_upsert_self (m : List (String × α)) (k : String) (v : α) :
    lookupOpt (upsert m k v) k = some v := by
  induction m with
  | nil => simp [upsert, lookupOpt]
  | cons p rest ih =>
    obtain ⟨k₁, v₁⟩ := p
    by_cases h : k₁ = k <;> simp [upsert, lookupOpt, h, ih]

theorem lookupOpt_upsert_ne (m : List (String × α)) (k k₂ : String) (v : α)
    (h : k₂ ≠ k) : lookupOpt (upsert m k v) k₂ = lookupOpt m k₂ := by
  have hne : ¬k = k₂ := fun h₁ => h (Eq.symm h₁)
  induction m with
  | nil => simp [upsert, lookupOpt, hne]
  | cons p rest ih =>
    obtain ⟨k₁, v₁⟩ := p
    by_cases h₁ : k₁ = k
    · subst h₁
      simp [upsert, lookupOpt, hne]
    · simp only [upsert, if_neg h₁, lookupOpt]
      by_cases h₂ : k₁ = k₂ <;> simp [h₂, ih]

theorem lookupD_upsert_self (m : List (String × α)) (k : String) (v dflt : α) :
    lookupD (upsert m k v) k dflt = v := by
  simp [lookupD, lookupOpt_upsert_self]

theorem lookupD_upsert_ne (m : List (String × α)) (k k₂ : String) (v : α) (dflt : α)
    (h : k₂ ≠ k) : lookupD (upsert m k v) k₂ dflt = lookupD m k₂ dflt := by
  simp [lookupD, lookupOpt_upsert_ne m k k₂ v h]

/-- The keys of an association list, in order. -/
def keysOf (m : List (String × α)) : List String := m.map (·.1)

theorem keysOf_nil : keysOf ([] : List (String × α)) = [] := rfl

theorem keysOf_cons (k : String) (v : α) (m : List (String × α)) :
    keysOf ((k, v) :: m) = k :: keysOf m := rfl

theorem keysOf_upsert (m : List (String × α)) (k : String) (v : α) (x : String) :
    x ∈ keysOf (upsert m k v) ↔ x = k ∨ x ∈ keysOf m := by
  induction m with
  | nil => simp [upsert, keysOf_cons, keysOf_nil]
  | cons p rest ih =>
    obtain ⟨k₁, v₁⟩ := p
    by_cases h : k₁ = k
    · subst h
      rw [show upsert ((k₁, v₁) :: rest) k₁ v = (k₁, v) :: rest from by simp [upsert]]
      rw [keysOf_cons, keysOf_cons]
      simp
    · simp only [upsert, if_neg h, keysOf_cons, List.mem_cons, ih]
      tauto

theorem keysOf_upsert_nodup (m : List (String × α)) (k : String) (v : α)
    (h : (keysOf m).Nodup) : (keysOf (upsert m k v)).Nodup := by
  induction m with
  | nil => simp [upsert, keysOf_cons, keysOf_nil]
  | cons p rest ih =>
    obtain ⟨k₁, v₁⟩ := p
    rw [keysOf_cons, List.nodup_cons] at h
    by_cases hk : k₁ = k
    · subst hk
      simpa [upsert, keysOf_cons, List.nodup_cons] using h
    · simp only [upsert, if_neg hk, keysOf_cons, List.nodup_cons]
      refine ⟨?_, ih h.2⟩
      intro hmem
      rcases (keysOf_upsert rest k v k₁).1 hmem with h₁ | h₁
      · exact hk h₁
      · exact h.1 h₁

theorem lookupOpt_eq_of_mem_nodup (m : List (String × α)) (k : String) (v : α)
    (hmem : (k, v) ∈ m) (hnd : (keysOf m).Nodup) : lookupOpt m k = some v := by
  induction m with
  | nil => simp at hmem
  | cons p rest ih =>
    obtain ⟨k₁, v₁⟩ := p
    rw [keysOf_cons, List.nodup_cons] at hnd
    rcases List.mem_cons.1 hmem with h | h
    · rw [Prod.mk.injEq] at h
      simp [lookupOpt, h.1, h.2]
    · have hk : k₁ ≠ k := by
        intro hkk
        subst hkk
        exact hnd.1 (by
          have : k₁ ∈ keysOf rest := List.mem_map_of_mem (·.1) h
          exact this)
      simp [lookupOpt, hk, ih h hnd.2]

theorem lookupOpt_isSome_iff_mem_keys (m : List (String × α)) (k : String) :
    (lookupOpt m k).isSome = true ↔ k ∈ keysOf m := by
  induction m with
  | nil => simp [lookupOpt, keysOf_nil]
  | cons p rest ih =>
    obtain ⟨k₁, v₁⟩ := p
    rw [keysOf_cons]
    by_cases h : k₁ = k
    · subst h
      simp [lookupOpt]
    · have : ¬k = k₁ := fun h₁ => h (Eq.symm h₁)
      simp [lookupOpt, h, ih, this]

/-- Bool test that `pat` is a prefix of `s` (character lists). -/
def leadsWith : List Char → List Char → Bool
  | [], _ => true
  | _ :: _, [] => false
  | p :: ps, c :: cs => p = c && leadsWith ps cs

/-- Bool test that `pat` occurs as a contiguous substring of `s`. -/
def occursL (pat : List Char) : List Char → Bool
  | [] => leadsWith pat []
  | c :: s => leadsWith pat (c :: s) || occursL pat s

/-- Fuel-driven worker for `replaceL`.  The fuel only makes the recursion
structural; `replaceL` passes enough fuel that the `0` branch is never
reached for the patterns the engine uses (which are always nonempty). -/
def replaceLF (rep pat : List Char) : Nat → List Char → List Char
  | 0, s => s
  | _ + 1, [] => []
  | fuel + 1, c :: s =>
    if pat ≠ [] ∧ leadsWith pat (c :: s) then
      rep ++ replaceLF rep pat fuel (s.drop (pat.length - 1))
    else
      c :: replaceLF rep pat fuel s

/-- Python `s.replace(pat, rep)` on character lists: replace every
non-overlapping occurrence of `pat`, scanning left to right.  (For the empty
pattern Python would interleave `rep` everywhere; the engine only ever calls
`replace` with patterns of the shape `"{" ++ key ++ "}"`, which are nonempty,
and for those this definition agrees with Python.) -/
def replaceL (s pat rep : List Char) : List Char :=
  replaceLF rep pat (s.length + 1) s

/-- Python `s.replace(pat, rep)` on strings. -/
def strReplace (s pat rep : String) : String :=
  String.mk (replaceL s.toList pat.toList rep.toList)

/-- Python `pat in s` (substring test) on strings; used only to state
properties, not by the engine itself. -/
def occursIn (pat s : String) : Bool :=
  occursL pat.toList s.toList

mutual

/-- Python `repr` of a `Value`, as used by `str` on dicts. -/
def pyRepr : Value → String
  | .str s => "\x27" ++ s ++ "\x27"
  | .dict l => "\x7b" ++ pyReprEntries l ++ "\x7d"

/-- Comma-separated `repr` of dict entries. -/
def pyReprEntries : List (String × Value) → String
  | [] => ""
  | [(k, v)] => "\x27" ++ k ++ "\x27: " ++ pyRepr v
  | (k, v) :: e :: rest => "\x27" ++ k ++ "\x27: " ++ pyRepr v ++ ", " ++ pyReprEntries (e :: rest)

end

/-- Python `str(v)` for a `Value`. -/
def pyStr : Value → String
  | .str s => s
  | .dict l => pyRepr (.dict l)

/-- A node of the flow graph (pydantic `NodeData`).  The `position` field of
the source model is omitted: it is a float pair used only by the UI and never
read by the engine. -/
structure NodeData where
  id : String
  type : String
  data : Dict

/-- An edge of the flow graph (pydantic `EdgeData`). -/
structure EdgeData where
  id : String
  source : String
  target : String
  sourceHandle : Option String
  targetHandle : Option String

/-- A flow definition (pydantic `FlowData`); the timestamps are engine-opaque
and omitted. -/
structure FlowData where
  id : String
  name : String
  nodes : List NodeData
  edges : List EdgeData

/-- The two external capabilities consumed by node variants, as oracles:
`apiKey` is `os.getenv("OPENAI_API_KEY")`; `llmCall model prompt` is the
chat-completion call, returning the response text or the message of a raised
exception; `userFn code inputData inputs` is the sandboxed
compile-and-invoke of `FunctionNode` user code (a fault while compiling or
running surfaces as `.error`). -/
structure Env where
  apiKey : Option String
  llmCall : Value → Value → Except String String
  userFn : String → Value → Dict → Except String Value

/-- One substitution pass of `PromptNode.execute`: for each mapping entry in
order, replace every occurrence of the token `"{" ++ key ++ "}"` by
`str(value)`. -/
def substPass (m : Dict) (t : String) : String :=
  m.foldl (fun r kv => strReplace r ("\x7b" ++ kv.1 ++ "\x7d") (pyStr kv.2)) t

/-- `PromptNode.execute`: two literal substitution passes over the template,
first the configured `variables`, then the aggregated `inputs`.  A non-string
`template` or non-dict `variables` config would make the Python code raise
(`AttributeError`), modelled by `.error`. -/
def promptExecute (data inputs : Dict) : Except String Dict :=
  match lookupD data "template" (.str ""), lookupD data "variables" (.dict []) with
  | .str t, .dict vars => .ok [("output", .str (substPass inputs (substPass vars t)))]
  | _, _ => .error "AttributeError"

/-- `FunctionNode.execute`: run the user code oracle on
`inputs.get("input", "")` and the full inputs mapping; any fault is caught
and becomes a success whose output is an error-describing string. -/
def functionExecute (env : Env) (data inputs : Dict) : Dict :=
  let code := pyStr (lookupD data "code" (.str "return input_data"))
  match env.userFn code (lookupD inputs "input" (.str "")) inputs with
  | .ok v => [("output", v)]
  | .error e => [("output", .str ("Error: " ++ e))]

/-- The prompt resolved by `LLMNode.execute`: the `prompt` input port,
falling back to the configured `prompt`, falling back to `""`. -/
def llmPrompt (data inputs : Dict) : Value :=
  match lookupOpt inputs "prompt" with
  | some v => v
  | none => lookupD data "prompt" (.str "")

/-- `LLMNode.execute`: if the API key is configured (present and nonempty,
Python truthiness), delegate to the capability and turn a raised fault into
the string `"LLM Error: ..."`; otherwise return the deterministic mock echo.
Either way the node succeeds. -/
def llmExecute (env : Env) (data inputs : Dict) : Dict :=
  let prompt := llmPrompt data inputs
  let model := lookupD data "model" (.str "gpt-3.5-turbo")
  let result :=
    match env.apiKey with
    | some key =>
      if key ≠ "" then
        match env.llmCall model prompt with
        | .ok content => content
        | .error e => "LLM Error: " ++ e
      else "Mock LLM response for: " ++ pyStr prompt
    | none => "Mock LLM response for: " ++ pyStr prompt
  [("output", .str result)]

/-- `StartNode.execute`. -/
def startExecute (data : Dict) (_ : Dict) : Dict :=
  [("output", lookupD data "initialValue" (.str "Started"))]

/-- `EndNode.execute`. -/
def endExecute (_ : Dict) (inputs : Dict) : Dict :=
  [("output", lookupD inputs "input" (.str "Completed"))]

/-- The registered node kinds (`FlowEngine.node_types`). -/
def knownType (t : String) : Bool :=
  t = "prompt" || t = "function" || t = "llm" || t = "start" || t = "end"

/-- Dispatch `await node.execute(inputs)` for the five registered node
classes.  The result is `Except`: `.error` models the call raising.  The
default branch models `BaseNode.execute` raising `NotImplementedError`; the
engine never reaches it because it checks `node_types.get` first. -/
def concreteExec (env : Env) (nd : NodeData) (inputs : Dict) : Except String Dict :=
  match nd.type with
  | "prompt" => promptExecute nd.data inputs
  | "function" => .ok (functionExecute env nd.data inputs)
  | "llm" => .ok (llmExecute env nd.data inputs)
  | "start" => .ok (startExecute nd.data inputs)
  | "end" => .ok (endExecute nd.data inputs)
  | _ => .error "NotImplementedError"

/-- One iteration of the edge loop of `FlowEngine.build_graph`:
`graph[edge.source].append(edge.target)` and `in_degree[edge.target] += 1`
on the two defaultdicts. -/
def graphStep (p : List (String × List String) × List (String × Int)) (e : EdgeData) :
    List (String × List String) × List (String × Int) :=
  (upsert p.1 e.source (lookupD p.1 e.source [] ++ [e.target]),
   upsert p.2 e.target (lookupD p.2 e.target 0 + 1))

/-- One iteration of the node loop of `FlowEngine.build_graph`:
`if node.id not in in_degree: in_degree[node.id] = 0`. -/
def ensureZero (d : List (String × Int)) (n : NodeData) : List (String × Int) :=
  if (lookupOpt d n.id).isSome then d else upsert d n.id 0

/-- One entry of the `node_map` dict comprehension. -/
def nmStep (m : List (String × NodeData)) (n : NodeData) : List (String × NodeData) :=
  upsert m n.id n

/-- `FlowEngine.build_graph`: adjacency mapping (defaultdict of lists),
in-degree mapping (defaultdict of ints, then every node id ensured present),
and the id → node lookup (a dict comprehension, so a later duplicate id
overwrites an earlier one). -/
def buildGraph (nodes : List NodeData) (edges : List EdgeData) :
    List (String × List String) × List (String × Int) × List (String × NodeData) :=
  let gi := edges.foldl graphStep ([], [])
  let indeg := nodes.foldl ensureZero gi.2
  let nodeMap := nodes.foldl nmStep []
  (gi.1, indeg, nodeMap)

/-- Sum of the positive parts of the in-degree table; only used to size the
fuel of `kahnF`. -/
def idegSum (d : List (String × Int)) : Nat :=
  (d.map (fun p => p.2.toNat)).sum

/-- The inner `for neighbor in graph[node]` loop of
`FlowEngine.topological_sort`: decrement each neighbor and enqueue it when
its in-degree reaches zero. -/
def kahnStep : List String → List (String × Int) → List String →
    List (String × Int) × List String
  | [], d, q => (d, q)
  | nb :: ts, d, q =>
    let d₁ := upsert d nb (lookupD d nb 0 - 1)
    if lookupD d₁ nb 0 = 0 then kahnStep ts d₁ (q ++ [nb])
    else kahnStep ts d₁ q

/-- The `while queue` loop of `FlowEngine.topological_sort`.  Fuel-driven to
keep the recursion structural; `topologicalSort` passes fuel that provably
dominates the loop measure, so the `0` branch is never reached. -/
def kahnF (g : List (String × List String)) : Nat → List String → List (String × Int) →
    List String
  | 0, _, _ => []
  | _ + 1, [], _ => []
  | fuel + 1, n :: rest, d =>
    let s := kahnStep (lookupD g n []) d rest
    n :: kahnF g fuel s.2 s.1

/-- The initial queue of `FlowEngine.topological_sort`: the zero-in-degree
node ids, in in-degree-table order. -/
def zeroQueue (d : List (String × Int)) : List String :=
  (d.filter (fun p => p.2 = 0)).map (·.1)

/-- `FlowEngine.topological_sort`: seed the queue with the zero-in-degree
node ids in table order, then run Kahn's algorithm.  A cyclic graph silently
yields a truncated order. -/
def topologicalSort (g : List (String × List String)) (d : List (String × Int)) :
    List String :=
  kahnF g ((zeroQueue d).length + idegSum d) (zeroQueue d) d

/-- The port key of an edge: `edge.sourceHandle or "input"` — Python `or`
falls through both for a missing and for an empty-string handle. -/
def handleKey (h : Option String) : String :=
  match h with
  | some s => if s = "" then "input" else s
  | none => "input"

/-- One edge of the input-aggregation scan: an edge targeting this node
whose source already has a cached output binds that output under the edge
port key. -/
def gatherStep (outs : List (String × Value)) (nid : String) (acc : Dict)
    (e : EdgeData) : Dict :=
  if e.target = nid then
    match lookupOpt outs e.source with
    | some v => upsert acc (handleKey e.sourceHandle) v
    | none => acc
  else acc

/-- The input-aggregation loop of `FlowEngine.execute_flow` (lines 202-206):
scan all edges in list order; every edge targeting this node whose source
already has a cached output binds that output under the edge port key,
later edges overwriting earlier ones. -/
def gatherInputs (edges : List EdgeData) (outs : List (String × Value)) (nid : String) :
    Dict :=
  edges.foldl (gatherStep outs nid) []

/-- The primary output cached for downstream nodes:
`output.get("output", output)`. -/
def primaryOut (output : Dict) : Value :=
  match lookupOpt output "output" with
  | some v => v
  | none => .dict output

/-- The node-execution loop of `FlowEngine.execute_flow`, generic in the
dispatched `execute` call (`execOf`), which may raise (`.error`).  State:
the `results` map and the `node_outputs` cache.  A missing `node_map` entry
reproduces the uncaught `KeyError` of `node_map[node_id]`; a fault raised by
`execute` is caught and recorded as a failure marker. -/
def runNodes (execOf : NodeData → Dict → Except String Dict) (edges : List EdgeData)
    (nodeMap : List (String × NodeData)) :
    List String → List (String × Dict) → List (String × Value) →
    Except String (List (String × Dict) × List (String × Value))
  | [], results, outs => .ok (results, outs)
  | nid :: rest, results, outs =>
    match lookupOpt nodeMap nid with
    | none => .error ("KeyError: " ++ nid)
    | some nd =>
      if knownType nd.type then
        let inputs := gatherInputs edges outs nid
        match execOf nd inputs with
        | .ok output =>
          runNodes execOf edges nodeMap rest (upsert results nid output)
            (upsert outs nid (primaryOut output))
        | .error msg =>
          runNodes execOf edges nodeMap rest
            (upsert results nid [("error", .str msg)]) outs
      else
        runNodes execOf edges nodeMap rest
          (upsert results nid [("error", .str ("Unknown node type: " ++ nd.type))]) outs

/-- The execution order computed by `FlowEngine.execute_flow` before the
node loop: `build_graph` then `topological_sort`. -/
def executionOrder (flow : FlowData) : List String :=
  let b := buildGraph flow.nodes flow.edges
  topologicalSort b.1 b.2.1

/-- `FlowEngine.execute_flow`, generic in the dispatched `execute` call:
build the graph, order it, run the node loop, and return the per-node result
map.  `.error` models an exception escaping `execute_flow`. -/
def executeFlowG (execOf : NodeData → Dict → Except String Dict) (flow : FlowData) :
    Except String (List (String × Dict)) :=
  let b := buildGraph flow.nodes flow.edges
  match runNodes execOf flow.edges b.2.2 (topologicalSort b.1 b.2.1) [] [] with
  | .ok pr => .ok pr.1
  | .error e => .error e

/-- `FlowEngine.execute_flow` with the five concrete node classes. -/
def executeFlow (env : Env) (flow : FlowData) : Except String (List (String × Dict)) :=
  executeFlowG (concreteExec env) flow

/-- Number of edges into `v` whose source has not yet been scheduled
(specification-side counter for the Kahn invariants). -/
def remCnt (E : List EdgeData) (done : List String) (v : String) : Nat :=
  E.countP (fun e => decide (e.target = v ∧ e.source ∉ done))

/-- Number of edges from `n` to `v` (specification-side counter). -/
def srcCnt (E : List EdgeData) (n v : String) : Nat :=
  E.countP (fun e => decide (e.source = n ∧ e.target = v))

theorem remCnt_cons (E : List EdgeData) (e : EdgeData) (done : List String) (v : String) :
    remCnt (e :: E) done v
      = remCnt E done v + (if e.target = v ∧ e.source ∉ done then 1 else 0) := by
  simp only [remCnt, List.countP_cons]
  by_cases h : e.target = v ∧ e.source ∉ done <;> simp [h]

theorem srcCnt_cons (E : List EdgeData) (e : EdgeData) (n v : String) :
    srcCnt (e :: E) n v
      = srcCnt E n v + (if e.source = n ∧ e.target = v then 1 else 0) := by
  simp only [srcCnt, List.countP_cons]
  by_cases h : e.source = n ∧ e.target = v <;> simp [h]

theorem remCnt_split (E : List EdgeData) (done : List String) (n v : String)
    (hn : n ∉ done) : remCnt E done v = remCnt E (done ++ [n]) v + srcCnt E n v := by
  induction E with
  | nil => simp [remCnt, srcCnt]
  | cons e es ih =>
    rw [remCnt_cons, remCnt_cons, srcCnt_cons, ih]
    by_cases ht : e.target = v
    · by_cases hs : e.source = n
      · simp [ht, hs, hn]
        omega
      · by_cases hd : e.source ∈ done <;> simp [ht, hs, hd] <;> omega
    · simp [ht]

theorem remCnt_append_le (E : List EdgeData) (done : List String) (n v : String) :
    remCnt E (done ++ [n]) v ≤ remCnt E done v := by
  induction E with
  | nil => simp [remCnt]
  | cons e es ih =>
    rw [remCnt_cons, remCnt_cons]
    by_cases ht : e.target = v
    · by_cases hd : e.source ∈ done
      · simp [ht, hd]
        omega
      · by_cases hdn : e.source = n <;> simp [ht, hd, hdn] <;> omega
    · simp [ht]
      omega

theorem srcCnt_le_remCnt (E : List EdgeData) (done : List String) (n v : String)
    (hn : n ∉ done) : srcCnt E n v ≤ remCnt E done v := by
  have := remCnt_split E done n v hn
  omega

theorem srcCnt_pos (E : List EdgeData) (e : EdgeData) (hmem : e ∈ E) :
    srcCnt E e.source e.target ≠ 0 := by
  have : 0 < E.countP (fun x => decide (x.source = e.source ∧ x.target = e.target)) :=
    List.countP_pos_iff.2 ⟨e, hmem, by simp⟩
  simp only [srcCnt]
  omega

theorem remCnt_pos_elim (E : List EdgeData) (done : List String) (v : String)
    (h : remCnt E done v ≠ 0) : ∃ e ∈ E, e.target = v ∧ e.source ∉ done := by
  have : 0 < E.countP (fun e => decide (e.target = v ∧ e.source ∉ done)) := by
    simp only [remCnt] at h
    omega
  obtain ⟨e, hmem, he⟩ := List.countP_pos_iff.1 this
  exact ⟨e, hmem, by simpa using he⟩

theorem remCnt_zero_elim (E : List EdgeData) (done : List String) (v : String)
    (h : remCnt E done v = 0) : ∀ e ∈ E, e.target = v → e.source ∈ done := by
  intro e hmem ht
  by_contra hs
  exact absurd h (by
    have : 0 < E.countP (fun e => decide (e.target = v ∧ e.source ∉ done)) :=
      List.countP_pos_iff.2 ⟨e, hmem, by simp [ht, hs]⟩
    simp only [remCnt]
    omega)

theorem count_adj_eq_srcCnt (E : List EdgeData) (n v : String) :
    ((E.filter (fun e => e.source = n)).map (·.target)).count v = srcCnt E n v := by
  induction E with
  | nil => simp [srcCnt]
  | cons e es ih =>
    rw [srcCnt_cons]
    by_cases hs : e.source = n
    · rw [List.filter_cons_of_pos (by simp [hs])]
      rw [List.map_cons, List.count_cons]
      by_cases ht : e.target = v <;> simp [hs, ht, ih]
    · rw [List.filter_cons_of_neg (by simp [hs])]
      simp [hs, ih]

theorem graphFold_adj (E : List EdgeData)
    (p : List (String × List String) × List (String × Int)) (s : String) :
    lookupD (E.foldl graphStep p).1 s []
      = lookupD p.1 s [] ++ (E.filter (fun e => e.source = s)).map (·.target) := by
  induction E generalizing p with
  | nil => simp
  | cons e es ih =>
    rw [List.foldl_cons, ih]
    by_cases hs : e.source = s
    · rw [List.filter_cons_of_pos (by simp [hs])]
      simp only [graphStep, hs, lookupD_upsert_self, List.map_cons]
      simp
    · rw [List.filter_cons_of_neg (by simp [hs])]
      have : s ≠ e.source := fun h => hs (Eq.symm h)
      simp only [graphStep, lookupD_upsert_ne _ _ _ _ _ this]

theorem graphFold_indeg (E : List EdgeData)
    (p : List (String × List String) × List (String × Int)) (v : String) :
    lookupD (E.foldl graphStep p).2 v 0
      = lookupD p.2 v 0 + (remCnt E [] v : Int) := by
  induction E generalizing p with
  | nil => simp [remCnt]
  | cons e es ih =>
    rw [List.foldl_cons, ih, remCnt_cons]
    by_cases ht : e.target = v
    · subst ht
      simp only [graphStep, lookupD_upsert_self]
      simp
      omega
    · have : v ≠ e.target := fun h => ht (Eq.symm h)
      simp only [graphStep, lookupD_upsert_ne _ _ _ _ _ this]
      simp [ht]

theorem graphFold_indeg_keys (E : List EdgeData)
    (p : List (String × List String) × List (String × Int)) (x : String) :
    x ∈ keysOf (E.foldl graphStep p).2
      ↔ x ∈ keysOf p.2 ∨ ∃ e ∈ E, e.target = x := by
  induction E generalizing p with
  | nil => simp
  | cons e es ih =>
    rw [List.foldl_cons, ih]
    simp only [graphStep, keysOf_upsert]
    constructor
    · rintro ((h | h) | h)
      · subst h
        exact Or.inr ⟨e, List.mem_cons_self .., rfl⟩
      · exact Or.inl h
      · obtain ⟨e₁, h₁, h₂⟩ := h
        exact Or.inr ⟨e₁, List.mem_cons_of_mem _ h₁, h₂⟩
    · rintro (h | ⟨e₁, h₁, h₂⟩)
      · exact Or.inl (Or.inr h)
      · rcases List.mem_cons.1 h₁ with h₃ | h₃
        · subst h₃
          exact Or.inl (Or.inl h₂.symm)
        · exact Or.inr ⟨e₁, h₃, h₂⟩

theorem graphFold_indeg_nodup (E : List EdgeData)
    (p : List (String × List String) × List (String × Int))
    (h : (keysOf p.2).Nodup) : (keysOf (E.foldl graphStep p).2).Nodup := by
  induction E generalizing p with
  | nil => exact h
  | cons e es ih =>
    rw [List.foldl_cons]
    exact ih _ (keysOf_upsert_nodup _ _ _ h)

theorem ensureZero_fold_val (ns : List NodeData) (d : List (String × Int)) (v : String) :
    lookupD (ns.foldl ensureZero d) v 0 = lookupD d v 0 := by
  induction ns generalizing d with
  | nil => rfl
  | cons n rest ih =>
    rw [List.foldl_cons, ih]
    by_cases h : (lookupOpt d n.id).isSome
    · simp [ensureZero, h]
    · have hnone : lookupOpt d n.id = none :=
        Option.not_isSome_iff_eq_none.1 (by simpa using h)
      simp only [ensureZero, hnone, Option.isSome_none, Bool.false_eq_true, if_false]
      by_cases hv : v = n.id
      · subst hv
        rw [lookupD_upsert_self]
        simp [lookupD, hnone]
      · rw [lookupD_upsert_ne _ _ _ _ _ hv]

theorem ensureZero_fold_keys (ns : List NodeData) (d : List (String × Int)) (x : String) :
    x ∈ keysOf (ns.foldl ensureZero d) ↔ x ∈ keysOf d ∨ x ∈ ns.map (·.id) := by
  induction ns generalizing d with
  | nil => simp
  | cons n rest ih =>
    rw [List.foldl_cons, ih]
    by_cases h : (lookupOpt d n.id).isSome
    · simp only [ensureZero, if_pos h, List.map_cons, List.mem_cons]
      constructor
      · rintro (h₁ | h₁)
        · exact Or.inl h₁
        · exact Or.inr (Or.inr h₁)
      · rintro (h₁ | h₁ | h₁)
        · exact Or.inl h₁
        · subst h₁
          exact Or.inl ((lookupOpt_isSome_iff_mem_keys d _).1 h)
        · exact Or.inr h₁
    · have hnone : lookupOpt d n.id = none :=
        Option.not_isSome_iff_eq_none.1 (by simpa using h)
      simp only [ensureZero, hnone, Option.isSome_none, Bool.false_eq_true, if_false,
        keysOf_upsert, List.map_cons, List.mem_cons]
      tauto

theorem ensureZero_fold_nodup (ns : List NodeData) (d : List (String × Int))
    (h : (keysOf d).Nodup) : (keysOf (ns.foldl ensureZero d)).Nodup := by
  induction ns generalizing d with
  | nil => exact h
  | cons n rest ih =>
    rw [List.foldl_cons]
    refine ih _ ?_
    by_cases h₁ : (lookupOpt d n.id).isSome
    · simpa [ensureZero, h₁] using h
    · have hnone : lookupOpt d n.id = none :=
        Option.not_isSome_iff_eq_none.1 (by simpa using h₁)
      simp only [ensureZero, hnone, Option.isSome_none, Bool.false_eq_true, if_false]
      exact keysOf_upsert_nodup _ _ _ h

theorem nmFold_notin (ns : List NodeData) (m : List (String × NodeData)) (k : String)
    (h : k ∉ ns.map (·.id)) : lookupOpt (ns.foldl nmStep m) k = lookupOpt m k := by
  induction ns generalizing m with
  | nil => rfl
  | cons n rest ih =>
    rw [List.map_cons, List.mem_cons] at h
    push_neg at h
    rw [List.foldl_cons, ih _ h.2, nmStep,
      lookupOpt_upsert_ne _ _ _ _ h.1]

theorem nmFold_mem (ns : List NodeData) (m : List (String × NodeData))
    (hnd : (ns.map (·.id)).Nodup) :
    ∀ n ∈ ns, lookupOpt (ns.foldl nmStep m) n.id = some n := by
  induction ns generalizing m with
  | nil => simp
  | cons n₀ rest ih =>
    rw [List.map_cons, List.nodup_cons] at hnd
    intro n hn
    rcases List.mem_cons.1 hn with h | h
    · subst h
      rw [List.foldl_cons, nmFold_notin _ _ _ hnd.1, nmStep, lookupOpt_upsert_self]
    · exact List.foldl_cons .. ▸ ih _ hnd.2 n h

theorem nmFold_isSome (ns : List NodeData) (m : List (String × NodeData)) (x : String) :
    (lookupOpt (ns.foldl nmStep m) x).isSome
      ↔ (lookupOpt m x).isSome ∨ x ∈ ns.map (·.id) := by
  induction ns generalizing m with
  | nil => simp
  | cons n rest ih =>
    rw [List.foldl_cons, ih]
    simp only [nmStep, List.map_cons, List.mem_cons]
    by_cases h : x = n.id
    · subst h
      simp [lookupOpt_upsert_self]
    · rw [lookupOpt_upsert_ne _ _ _ _ h]
      tauto

theorem lookupD_cons_eq (k₁ k : String) (v : α) (m : List (String × α)) (dflt : α)
    (h : k₁ = k) : lookupD ((k₁, v) :: m) k dflt = v := by
  simp [lookupD, lookupOpt, h]

theorem lookupD_cons_ne (k₁ k : String) (v : α) (m : List (String × α)) (dflt : α)
    (h : k₁ ≠ k) : lookupD ((k₁, v) :: m) k dflt = lookupD m k dflt := by
  simp [lookupD, lookupOpt, h]

theorem buildGraph_adj (nodes : List NodeData) (edges : List EdgeData) (s : String) :
    lookupD (buildGraph nodes edges).1 s []
      = (edges.filter (fun e => e.source = s)).map (·.target) := by
  have := graphFold_adj edges ([], []) s
  simpa [buildGraph, lookupD, lookupOpt] using this

theorem buildGraph_indeg (nodes : List NodeData) (edges : List EdgeData) (v : String) :
    lookupD (buildGraph nodes edges).2.1 v 0 = (remCnt edges [] v : Int) := by
  show lookupD (nodes.foldl ensureZero (edges.foldl graphStep ([], [])).2) v 0 = _
  rw [ensureZero_fold_val, graphFold_indeg]
  simp [lookupD, lookupOpt]

theorem buildGraph_indeg_keys (nodes : List NodeData) (edges : List EdgeData) (x : String) :
    x ∈ keysOf (buildGraph nodes edges).2.1
      ↔ (∃ e ∈ edges, e.target = x) ∨ x ∈ nodes.map (·.id) := by
  show x ∈ keysOf (nodes.foldl ensureZero (edges.foldl graphStep ([], [])).2) ↔ _
  rw [ensureZero_fold_keys, graphFold_indeg_keys]
  simp [keysOf]

theorem buildGraph_indeg_nodup (nodes : List NodeData) (edges : List EdgeData) :
    (keysOf (buildGraph nodes edges).2.1).Nodup := by
  show (keysOf (nodes.foldl ensureZero (edges.foldl graphStep ([], [])).2)).Nodup
  exact ensureZero_fold_nodup _ _ (graphFold_indeg_nodup _ _ (by simp [keysOf]))

theorem buildGraph_nm_some (nodes : List NodeData) (edges : List EdgeData)
    (hnd : (nodes.map (·.id)).Nodup) :
    ∀ n ∈ nodes, lookupOpt (buildGraph nodes edges).2.2 n.id = some n := by
  exact nmFold_mem nodes [] hnd

theorem buildGraph_nm_isSome (nodes : List NodeData) (edges : List EdgeData) (x : String) :
    (lookupOpt (buildGraph nodes edges).2.2 x).isSome ↔ x ∈ nodes.map (·.id) := by
  show (lookupOpt (nodes.foldl nmStep []) x).isSome ↔ _
  rw [nmFold_isSome]
  simp [lookupOpt]

theorem mem_keysOf_elim (m : List (String × α)) (x : String) (h : x ∈ keysOf m) :
    ∃ w, (x, w) ∈ m := by
  obtain ⟨p, hp, he⟩ := List.mem_map.1 h
  exact ⟨p.2, by rwa [show (x, p.2) = p from by rw [← he]]⟩

theorem mem_zeroQueue_iff (d : List (String × Int)) (hnd : (keysOf d).Nodup) (x : String) :
    x ∈ zeroQueue d ↔ x ∈ keysOf d ∧ lookupD d x 0 = 0 := by
  constructor
  · intro h
    obtain ⟨p, hp, he⟩ := List.mem_map.1 h
    have hmem : p ∈ d := List.mem_of_mem_filter hp
    have hz : p.2 = 0 := by simpa using List.of_mem_filter hp
    have hk : x ∈ keysOf d := he ▸ List.mem_map_of_mem (·.1) hmem
    refine ⟨hk, ?_⟩
    have : lookupOpt d x = some p.2 := by
      rw [← he]
      exact lookupOpt_eq_of_mem_nodup d p.1 p.2 (by simpa using hmem) hnd
    simp [lookupD, this, hz]
  · rintro ⟨hk, hz⟩
    obtain ⟨w, hw⟩ := mem_keysOf_elim d x hk
    have : lookupOpt d x = some w := lookupOpt_eq_of_mem_nodup d x w hw hnd
    have hw0 : w = 0 := by
      simp [lookupD, this] at hz
      exact hz
    subst hw0
    have hmf : (x, (0 : Int)) ∈ d.filter (fun p => p.2 = 0) :=
      List.mem_filter.2 ⟨hw, by rfl⟩
    exact List.mem_map_of_mem (·.1) hmf

theorem zeroQueue_nodup (d : List (String × Int)) (hnd : (keysOf d).Nodup) :
    (zeroQueue d).Nodup := by
  have hsub : List.Sublist ((d.filter (fun p => p.2 = 0)).map (·.1)) (d.map (·.1)) :=
    (List.filter_sublist d).map _
  exact hnd.sublist hsub

theorem idegSum_upsert (d : List (String × Int)) (k : String) (w : Int) :
    idegSum (upsert d k w) + (lookupD d k 0).toNat = idegSum d + w.toNat := by
  induction d with
  | nil => simp [idegSum, upsert, lookupD, lookupOpt]
  | cons p rest ih =>
    obtain ⟨k₁, v₁⟩ := p
    by_cases h : k₁ = k
    · subst h
      rw [show upsert ((k₁, v₁) :: rest) k₁ w = (k₁, w) :: rest from by simp [upsert]]
      rw [lookupD_cons_eq _ _ _ _ _ rfl]
      simp [idegSum]
      omega
    · rw [show upsert ((k₁, v₁) :: rest) k w = (k₁, v₁) :: upsert rest k w from by
        simp [upsert, h]]
      rw [lookupD_cons_ne _ _ _ _ _ h]
      simp only [idegSum, List.map_cons, List.sum_cons]
      simp only [idegSum] at ih
      omega

theorem kahnStep_measure (ts : List String) (d : List (String × Int)) (q : List String) :
    (kahnStep ts d q).2.length + idegSum (kahnStep ts d q).1 ≤ q.length + idegSum d := by
  induction ts generalizing d q with
  | nil => simp [kahnStep]
  | cons nb ts ih =>
    rw [show kahnStep (nb :: ts) d q
        = if lookupD (upsert d nb (lookupD d nb 0 - 1)) nb 0 = 0 then
            kahnStep ts (upsert d nb (lookupD d nb 0 - 1)) (q ++ [nb])
          else kahnStep ts (upsert d nb (lookupD d nb 0 - 1)) q from rfl]
    have hd₁ : lookupD (upsert d nb (lookupD d nb 0 - 1)) nb 0 = lookupD d nb 0 - 1 :=
      lookupD_upsert_self ..
    have hsum := idegSum_upsert d nb (lookupD d nb 0 - 1)
    by_cases h : lookupD (upsert d nb (lookupD d nb 0 - 1)) nb 0 = 0
    · rw [if_pos h]
      rw [hd₁] at h
      have h1 : lookupD d nb 0 = 1 := by omega
      have := ih (upsert d nb (lookupD d nb 0 - 1)) (q ++ [nb])
      have hlen : (q ++ [nb]).length = q.length + 1 := by simp
      omega
    · rw [if_neg h]
      have := ih (upsert d nb (lookupD d nb 0 - 1)) q
      have hmono : (lookupD d nb 0 - 1).toNat ≤ (lookupD d nb 0).toNat :=
        Int.toNat_le_toNat (by omega)
      omega

/-- There is an edge from `a` to `b` in the edge list. -/
def hasEdge (E : List EdgeData) (a b : String) : Prop :=
  ∃ e ∈ E, e.source = a ∧ e.target = b

/-- `a` occurs strictly before `b` in the list. -/
def Precedes (l : List String) (a b : String) : Prop :=
  ∃ l₁ l₂ l₃, l = l₁ ++ a :: l₂ ++ b :: l₃

theorem Precedes.append_right (l m : List String) (a b : String)
    (h : Precedes l a b) : Precedes (l ++ m) a b := by
  obtain ⟨l₁, l₂, l₃, rfl⟩ := h
  exact ⟨l₁, l₂, l₃ ++ m, by simp⟩

theorem Precedes.mem_append_singleton (l : List String) (a n : String) (h : a ∈ l) :
    Precedes (l ++ [n]) a n := by
  obtain ⟨s, t, rfl⟩ := List.append_of_mem h
  exact ⟨s, t, [], by simp⟩

theorem Precedes.mem_left (l : List String) (a b : String) (h : Precedes l a b) :
    a ∈ l := by
  obtain ⟨l₁, l₂, l₃, rfl⟩ := h
  simp

/-- Loop invariant of the outer `while queue` loop relative to the already
emitted prefix `done`: the in-degree table counts exactly the edges whose
source is still unscheduled, the queue is duplicate-free and disjoint from
`done`, and every queued or emitted node has no remaining incoming edge. -/
structure BInv (E : List EdgeData) (done q : List String)
    (d : List (String × Int)) : Prop where
  count_eq : ∀ v, lookupD d v 0 = ((remCnt E done v : Nat) : Int)
  done_nodup : done.Nodup
  q_nodup : q.Nodup
  q_disj : ∀ x ∈ q, x ∉ done
  q_zero : ∀ x ∈ q, lookupD d x 0 = 0
  done_zero : ∀ x ∈ done, remCnt E done x = 0

/-- Invariant of the inner neighbor loop: `done` already includes the node
being expanded, and `ts` is the suffix of its adjacency list not yet
decremented.  `V` is a set of node ids for which the queue is known to be
complete (used only by the completeness argument; instantiated with `[]`
elsewhere). -/
structure MidInv (E : List EdgeData) (V : List String) (done ts : List String)
    (d : List (String × Int)) (q : List String) : Prop where
  count_eq : ∀ v, lookupD d v 0 = ((remCnt E done v + ts.count v : Nat) : Int)
  q_nodup : q.Nodup
  q_rem : ∀ x ∈ q, remCnt E done x = 0 ∧ ts.count x = 0
  q_disj : ∀ x ∈ q, x ∉ done
  done_rem : ∀ x ∈ done, remCnt E done x = 0 ∧ ts.count x = 0
  ready : ∀ v ∈ V, v ∉ done → v ∉ q → lookupD d v 0 ≠ 0

theorem kahnStep_inv (E : List EdgeData) (V done : List String) :
    ∀ (ts : List String) (d : List (String × Int)) (q : List String),
      MidInv E V done ts d q →
      MidInv E V done [] (kahnStep ts d q).1 (kahnStep ts d q).2
        ∧ ∀ x ∈ (kahnStep ts d q).2, x ∈ q ∨ x ∈ ts := by
  intro ts
  induction ts with
  | nil =>
    intro d q inv
    exact ⟨inv, fun x hx => Or.inl hx⟩
  | cons nb ts ih =>
    intro d q inv
    rw [show kahnStep (nb :: ts) d q
        = if lookupD (upsert d nb (lookupD d nb 0 - 1)) nb 0 = 0 then
            kahnStep ts (upsert d nb (lookupD d nb 0 - 1)) (q ++ [nb])
          else kahnStep ts (upsert d nb (lookupD d nb 0 - 1)) q from rfl]
    have hcnt := inv.count_eq nb
    have hself : (nb :: ts).count nb = ts.count nb + 1 := by
      simp [List.count_cons]
    have hne_cnt : ∀ v, v ≠ nb → (nb :: ts).count v = ts.count v := by
      intro v hv
      simp [List.count_cons, hv, fun h => hv (Eq.symm h)]
    have hd₁self : lookupD (upsert d nb (lookupD d nb 0 - 1)) nb 0 = lookupD d nb 0 - 1 :=
      lookupD_upsert_self ..
    have hd₁ne : ∀ v, v ≠ nb →
        lookupD (upsert d nb (lookupD d nb 0 - 1)) v 0 = lookupD d v 0 := by
      intro v hv
      exact lookupD_upsert_ne _ _ _ _ _ hv
    have hcount_eq : ∀ v, lookupD (upsert d nb (lookupD d nb 0 - 1)) v 0
        = ((remCnt E done v + ts.count v : Nat) : Int) := by
      intro v
      by_cases hv : v = nb
      · subst hv
        rw [hd₁self, hcnt, hself]
        push_cast
        omega
      · rw [hd₁ne v hv, inv.count_eq v, hne_cnt v hv]
    have hq_rem : ∀ x ∈ q, remCnt E done x = 0 ∧ ts.count x = 0 := by
      intro x hx
      obtain ⟨h₁, h₂⟩ := inv.q_rem x hx
      refine ⟨h₁, ?_⟩
      by_cases hxnb : x = nb
      · subst hxnb
        rw [hself] at h₂
        omega
      · rwa [hne_cnt x hxnb] at h₂
    have hdone_rem : ∀ x ∈ done, remCnt E done x = 0 ∧ ts.count x = 0 := by
      intro x hx
      obtain ⟨h₁, h₂⟩ := inv.done_rem x hx
      refine ⟨h₁, ?_⟩
      by_cases hxnb : x = nb
      · subst hxnb
        rw [hself] at h₂
        omega
      · rwa [hne_cnt x hxnb] at h₂
    have hnb_notin_q : nb ∉ q := by
      intro hmem
      have := (inv.q_rem nb hmem).2
      rw [hself] at this
      omega
    have hnb_notin_done : nb ∉ done := by
      intro hmem
      have := (inv.done_rem nb hmem).2
      rw [hself] at this
      omega
    by_cases h : lookupD (upsert d nb (lookupD d nb 0 - 1)) nb 0 = 0
    · rw [if_pos h]
      have hz : remCnt E done nb = 0 ∧ ts.count nb = 0 := by
        rw [hcount_eq nb] at h
        constructor <;> omega
      have hmid : MidInv E V done ts (upsert d nb (lookupD d nb 0 - 1)) (q ++ [nb]) :=
        { count_eq := hcount_eq
          q_nodup := by
            rw [List.nodup_append]
            exact ⟨inv.q_nodup, List.nodup_singleton nb, by
              intro x hx hx₁
              rw [List.mem_singleton] at hx₁
              subst hx₁
              exact hnb_notin_q hx⟩
          q_rem := by
            intro x hx
            rcases List.mem_append.1 hx with h₁ | h₁
            · exact hq_rem x h₁
            · rw [List.mem_singleton] at h₁
              subst h₁
              exact hz
          q_disj := by
            intro x hx
            rcases List.mem_append.1 hx with h₁ | h₁
            · exact inv.q_disj x h₁
            · rw [List.mem_singleton] at h₁
              subst h₁
              exact hnb_notin_done
          done_rem := hdone_rem
          ready := by
            intro v hv hvd hvq
            have hvnb : v ≠ nb := by
              intro hvnb
              subst hvnb
              exact hvq (List.mem_append.2 (Or.inr (List.mem_singleton.2 rfl)))
            rw [hd₁ne v hvnb]
            exact inv.ready v hv hvd (fun hmem => hvq (List.mem_append.2 (Or.inl hmem))) }
      obtain ⟨hout, hmem⟩ := ih _ _ hmid
      refine ⟨hout, ?_⟩
      intro x hx
      rcases hmem x hx with h₁ | h₁
      · rcases List.mem_append.1 h₁ with h₂ | h₂
        · exact Or.inl h₂
        · rw [List.mem_singleton] at h₂
          exact Or.inr (h₂ ▸ List.mem_cons_self ..)
      · exact Or.inr (List.mem_cons_of_mem _ h₁)
    · rw [if_neg h]
      have hmid : MidInv E V done ts (upsert d nb (lookupD d nb 0 - 1)) q :=
        { count_eq := hcount_eq
          q_nodup := inv.q_nodup
          q_rem := hq_rem
          q_disj := inv.q_disj
          done_rem := hdone_rem
          ready := by
            intro v hv hvd hvq
            by_cases hvnb : v = nb
            · subst hvnb
              exact h
            · rw [hd₁ne v hvnb]
              exact inv.ready v hv hvd hvq }
      obtain ⟨hout, hmem⟩ := ih _ _ hmid
      refine ⟨hout, ?_⟩
      intro x hx
      rcases hmem x hx with h₁ | h₁
      · exact Or.inl h₁
      · exact Or.inr (List.mem_cons_of_mem _ h₁)

theorem binv_head_remCnt (E : List EdgeData) (done q : List String)
    (d : List (String × Int)) (n : String) (hB : BInv E done q d) (hn : n ∈ q) :
    remCnt E done n = 0 := by
  have h := hB.q_zero n hn
  rw [hB.count_eq n] at h
  exact_mod_cast h

theorem step_in (E : List EdgeData) (V : List String) (g : List (String × List String))
    (hadj : ∀ s, lookupD g s [] = (E.filter (fun e => e.source = s)).map (·.target))
    (done rest : List String) (d : List (String × Int)) (n : String)
    (hB : BInv E done (n :: rest) d)
    (hready : ∀ v ∈ V, v ∉ done → v ∉ n :: rest → lookupD d v 0 ≠ 0) :
    MidInv E V (done ++ [n]) (lookupD g n []) d rest := by
  have hn_done : n ∉ done := hB.q_disj n (List.mem_cons_self ..)
  have hn_rest : n ∉ rest := (List.nodup_cons.1 hB.q_nodup).1
  have hzn : remCnt E done n = 0 := binv_head_remCnt E done _ d n hB (List.mem_cons_self ..)
  have hadjcount : ∀ v, (lookupD g n []).count v = srcCnt E n v := by
    intro v
    rw [hadj n]
    exact count_adj_eq_srcCnt E n v
  refine
    { count_eq := ?_, q_nodup := (List.nodup_cons.1 hB.q_nodup).2, q_rem := ?_
      q_disj := ?_, done_rem := ?_, ready := ?_ }
  · intro v
    rw [hB.count_eq v, hadjcount v, remCnt_split E done n v hn_done]
  · intro x hx
    have hx0 : remCnt E done x = 0 :=
      binv_head_remCnt E done _ d x hB (List.mem_cons_of_mem _ hx)
    have h₁ : remCnt E (done ++ [n]) x = 0 :=
      Nat.le_zero.1 (hx0 ▸ remCnt_append_le E done n x)
    have h₂ : (lookupD g n []).count x = 0 := by
      rw [hadjcount x]
      exact Nat.le_zero.1 (hx0 ▸ srcCnt_le_remCnt E done n x hn_done)
    exact ⟨h₁, h₂⟩
  · intro x hx
    rw [List.mem_append, List.mem_singleton]
    rintro (h | h)
    · exact hB.q_disj x (List.mem_cons_of_mem _ hx) h
    · subst h
      exact hn_rest hx
  · intro x hx
    rcases List.mem_append.1 hx with h | h
    · have hx0 : remCnt E done x = 0 := hB.done_zero x h
      refine ⟨Nat.le_zero.1 (hx0 ▸ remCnt_append_le E done n x), ?_⟩
      rw [hadjcount x]
      have hxd : n ∉ done := hn_done
      exact Nat.le_zero.1 (hx0 ▸ srcCnt_le_remCnt E done n x hn_done)
    · rw [List.mem_singleton] at h
      subst h
      refine ⟨Nat.le_zero.1 (hzn ▸ remCnt_append_le E done x x), ?_⟩
      rw [hadjcount x]
      exact Nat.le_zero.1 (hzn ▸ srcCnt_le_remCnt E done x x hn_done)
  · intro v hv hvd hvq
    rw [List.mem_append, List.mem_singleton] at hvd
    push_neg at hvd
    exact hready v hv hvd.1 (by
      rw [List.mem_cons]
      push_neg
      exact ⟨hvd.2, hvq⟩)

theorem step_out (E : List EdgeData) (V done₁ : List String)
    (d₁ : List (String × Int)) (q₁ : List String) (hdn : done₁.Nodup)
    (hmid : MidInv E V done₁ [] d₁ q₁) : BInv E done₁ q₁ d₁ :=
  { count_eq := fun v => by
      have := hmid.count_eq v
      simpa using this
    done_nodup := hdn
    q_nodup := hmid.q_nodup
    q_disj := hmid.q_disj
    q_zero := fun x hx => by
      have := hmid.count_eq x
      rw [(hmid.q_rem x hx).1] at this
      simpa using this
    done_zero := fun x hx => (hmid.done_rem x hx).1 }

theorem kahnF_run (E : List EdgeData) (g : List (String × List String))
    (hadj : ∀ s, lookupD g s [] = (E.filter (fun e => e.source = s)).map (·.target)) :
    ∀ (fuel : Nat) (q : List String) (d : List (String × Int)) (done : List String),
      q.length + idegSum d ≤ fuel → BInv E done q d →
      (∀ e ∈ E, e.target ∈ done → Precedes done e.source e.target) →
      ((done ++ kahnF g fuel q d).Nodup)
        ∧ (∀ x ∈ kahnF g fuel q d, x ∈ q ∨ ∃ e ∈ E, e.target = x)
        ∧ (∀ e ∈ E, e.target ∈ done ++ kahnF g fuel q d →
            Precedes (done ++ kahnF g fuel q d) e.source e.target) := by
  intro fuel
  induction fuel with
  | zero =>
    intro q d done hm hB horder
    rw [show kahnF g 0 q d = [] from rfl]
    simp only [List.append_nil, List.not_mem_nil]
    exact ⟨hB.done_nodup, by simp, horder⟩
  | succ fuel ih =>
    intro q d done hm hB horder
    match q with
    | [] =>
      rw [show kahnF g (fuel + 1) [] d = [] from rfl]
      simp only [List.append_nil, List.not_mem_nil]
      exact ⟨hB.done_nodup, by simp, horder⟩
    | n :: rest =>
      rw [show kahnF g (fuel + 1) (n :: rest) d
          = n :: kahnF g fuel (kahnStep (lookupD g n []) d rest).2
              (kahnStep (lookupD g n []) d rest).1 from rfl]
      have hn_done : n ∉ done := hB.q_disj n (List.mem_cons_self ..)
      have hzn : remCnt E done n = 0 :=
        binv_head_remCnt E done _ d n hB (List.mem_cons_self ..)
      have hdn₁ : (done ++ [n]).Nodup := by
        rw [List.nodup_append]
        exact ⟨hB.done_nodup, List.nodup_singleton n, by
          intro x hx hx₁
          rw [List.mem_singleton] at hx₁
          subst hx₁
          exact hn_done hx⟩
      have hmid := step_in E [] g hadj done rest d n hB (by simp)
      obtain ⟨hout, hmem⟩ := kahnStep_inv E [] (done ++ [n]) (lookupD g n []) d rest hmid
      have hB₁ := step_out E [] (done ++ [n]) _ _ hdn₁ hout
      have hm₁ : (kahnStep (lookupD g n []) d rest).2.length
          + idegSum (kahnStep (lookupD g n []) d rest).1 ≤ fuel := by
        have := kahnStep_measure (lookupD g n []) d rest
        have hq : (n :: rest).length = rest.length + 1 := by simp
        omega
      have horder₁ : ∀ e ∈ E, e.target ∈ done ++ [n] →
          Precedes (done ++ [n]) e.source e.target := by
        intro e he ht
        rcases List.mem_append.1 ht with h | h
        · exact (horder e he h).append_right _ _ _ _
        · rw [List.mem_singleton] at h
          have hsrc : e.source ∈ done := remCnt_zero_elim E done n hzn e he h
          exact h ▸ Precedes.mem_append_singleton done e.source n hsrc
      obtain ⟨hnd, hmm, hprec⟩ := ih _ _ _ hm₁ hB₁ horder₁
      rw [show done ++ n :: kahnF g fuel (kahnStep (lookupD g n []) d rest).2
            (kahnStep (lookupD g n []) d rest).1
          = (done ++ [n]) ++ kahnF g fuel (kahnStep (lookupD g n []) d rest).2
            (kahnStep (lookupD g n []) d rest).1 from by simp]
      refine ⟨hnd, ?_, hprec⟩
      intro x hx
      rcases List.mem_cons.1 hx with h | h
      · exact Or.inl (h ▸ List.mem_cons_self ..)
      · rcases hmm x h with h₁ | h₁
        · rcases hmem x h₁ with h₂ | h₂
          · exact Or.inl (List.mem_cons_of_mem _ h₂)
          · rw [hadj n] at h₂
            obtain ⟨e, he, hte⟩ := List.mem_map.1 h₂
            exact Or.inr ⟨e, List.mem_of_mem_filter he, hte⟩
        · exact Or.inr h₁

theorem kahnF_skip (E : List EdgeData) (g : List (String × List String))
    (hadj : ∀ s, lookupD g s [] = (E.filter (fun e => e.source = s)).map (·.target))
    (u t : String) (hunt : ∀ e ∈ E, e.target ≠ u)
    (hedge : ∃ e ∈ E, e.source = u ∧ e.target = t) :
    ∀ (fuel : Nat) (q : List String) (d : List (String × Int)) (done : List String),
      BInv E done q d → u ∉ q → u ∉ done → t ∉ kahnF g fuel q d := by
  have hsrcpos : srcCnt E u t ≠ 0 := by
    obtain ⟨e, he, hs, ht⟩ := hedge
    have := srcCnt_pos E e he
    rwa [hs, ht] at this
  intro fuel
  induction fuel with
  | zero =>
    intro q d done hB hq hd
    rw [show kahnF g 0 q d = [] from rfl]
    exact List.not_mem_nil t
  | succ fuel ih =>
    intro q d done hB hq hd
    match q with
    | [] =>
      rw [show kahnF g (fuel + 1) [] d = [] from rfl]
      exact List.not_mem_nil t
    | n :: rest =>
      rw [show kahnF g (fuel + 1) (n :: rest) d
          = n :: kahnF g fuel (kahnStep (lookupD g n []) d rest).2
              (kahnStep (lookupD g n []) d rest).1 from rfl]
      have hn_done : n ∉ done := hB.q_disj n (List.mem_cons_self ..)
      have hzn : remCnt E done n = 0 :=
        binv_head_remCnt E done _ d n hB (List.mem_cons_self ..)
      have hnt : n ≠ t := by
        intro h
        subst h
        have := srcCnt_le_remCnt E done u n hd
        omega
      have hdn₁ : (done ++ [n]).Nodup := by
        rw [List.nodup_append]
        exact ⟨hB.done_nodup, List.nodup_singleton n, by
          intro x hx hx₁
          rw [List.mem_singleton] at hx₁
          subst hx₁
          exact hn_done hx⟩
      have hmid := step_in E [] g hadj done rest d n hB (by simp)
      obtain ⟨hout, hmem⟩ := kahnStep_inv E [] (done ++ [n]) (lookupD g n []) d rest hmid
      have hB₁ := step_out E [] (done ++ [n]) _ _ hdn₁ hout
      have hu_q₁ : u ∉ (kahnStep (lookupD g n []) d rest).2 := by
        intro hmem₁
        rcases hmem u hmem₁ with h | h
        · exact hq (List.mem_cons_of_mem _ h)
        · rw [hadj n] at h
          obtain ⟨e, he, hte⟩ := List.mem_map.1 h
          exact hunt e (List.mem_of_mem_filter he) hte
      have hu_done₁ : u ∉ done ++ [n] := by
        rw [List.mem_append, List.mem_singleton]
        push_neg
        exact ⟨hd, fun h => hq (h ▸ List.mem_cons_self ..)⟩
      have := ih _ _ _ hB₁ hu_q₁ hu_done₁
      intro hmem₂
      rcases List.mem_cons.1 hmem₂ with h | h
      · exact hnt (Eq.symm h)
      · exact this h

theorem iterate_transGen (E : List EdgeData) (S : List String)
    (F : {x // x ∈ S} → {x // x ∈ S}) (hF : ∀ p, hasEdge E (F p).1 p.1) :
    ∀ (k : Nat) (p : {x // x ∈ S}), 1 ≤ k →
      Relation.TransGen (hasEdge E) (F^[k] p).1 p.1 := by
  intro k
  induction k with
  | zero => intro p h; omega
  | succ k ih =>
    intro p _
    match k, ih with
    | 0, _ => exact Relation.TransGen.single (hF p)
    | k + 1, ih =>
      rw [Function.iterate_succ_apply]
      exact Relation.TransGen.trans (ih (F p) (by omega)) (Relation.TransGen.single (hF p))

theorem exists_cycle_of_all_pred (E : List EdgeData) (S : List String) (hne : S ≠ [])
    (hpred : ∀ v ∈ S, ∃ u, u ∈ S ∧ hasEdge E u v) :
    ∃ w, Relation.TransGen (hasEdge E) w w := by
  haveI hfin : Finite {x // x ∈ S} := by
    have := S.finite_toSet
    exact this.to_subtype
  let F : {x // x ∈ S} → {x // x ∈ S} := fun p =>
    ⟨(hpred p.1 p.2).choose, (hpred p.1 p.2).choose_spec.1⟩
  have hF : ∀ p, hasEdge E (F p).1 p.1 := fun p => (hpred p.1 p.2).choose_spec.2
  obtain ⟨a, ha⟩ := List.exists_mem_of_ne_nil S hne
  obtain ⟨m, k, hmk, heq⟩ :=
    Finite.exists_ne_map_eq_of_infinite (fun j : Nat => F^[j] ⟨a, ha⟩)
  rcases Nat.lt_or_ge m k with hlt | hge
  · refine ⟨(F^[m] ⟨a, ha⟩).1, ?_⟩
    have hiter : F^[k - m] (F^[m] ⟨a, ha⟩) = F^[m] ⟨a, ha⟩ := by
      rw [← Function.iterate_add_apply]
      rw [show k - m + m = k from by omega]
      exact heq.symm
    have := iterate_transGen E S F hF (k - m) (F^[m] ⟨a, ha⟩) (by omega)
    rwa [hiter] at this
  · have hlt : k < m := by omega
    refine ⟨(F^[k] ⟨a, ha⟩).1, ?_⟩
    have hiter : F^[m - k] (F^[k] ⟨a, ha⟩) = F^[k] ⟨a, ha⟩ := by
      rw [← Function.iterate_add_apply]
      rw [show m - k + k = m from by omega]
      exact heq
    have := iterate_transGen E S F hF (m - k) (F^[k] ⟨a, ha⟩) (by omega)
    rwa [hiter] at this

theorem kahnF_complete (E : List EdgeData) (V : List String)
    (g : List (String × List String))
    (hadj : ∀ s, lookupD g s [] = (E.filter (fun e => e.source = s)).map (·.target))
    (hV : ∀ e ∈ E, e.source ∈ V ∧ e.target ∈ V)
    (hacyc : ∀ w, ¬Relation.TransGen (hasEdge E) w w) :
    ∀ (fuel : Nat) (q : List String) (d : List (String × Int)) (done : List String),
      q.length + idegSum d ≤ fuel → BInv E done q d →
      (∀ v ∈ V, v ∉ done → v ∉ q → lookupD d v 0 ≠ 0) →
      ∀ v ∈ V, v ∈ done ++ kahnF g fuel q d := by
  have hleaf : ∀ (d : List (String × Int)) (done : List String), BInv E done [] d →
      (∀ v ∈ V, v ∉ done → v ∉ ([] : List String) → lookupD d v 0 ≠ 0) →
      ∀ v ∈ V, v ∈ done := by
    intro d done hB hready v hv
    by_contra hvd
    have hSmem : v ∈ V.filter (fun x => !done.contains x) :=
      List.mem_filter.2 ⟨hv, by simpa using hvd⟩
    have hSne : V.filter (fun x => !done.contains x) ≠ [] :=
      fun h => by rw [h] at hSmem; exact List.not_mem_nil v hSmem
    have hpred : ∀ x ∈ V.filter (fun x => !done.contains x),
        ∃ u, u ∈ V.filter (fun x => !done.contains x) ∧ hasEdge E u x := by
      intro x hx
      have hxV : x ∈ V := List.mem_of_mem_filter hx
      have hxd : x ∉ done := by simpa using List.of_mem_filter hx
      have hne := hready x hxV hxd (List.not_mem_nil x)
      rw [hB.count_eq x] at hne
      have hrem : remCnt E done x ≠ 0 := by
        intro h
        rw [h] at hne
        exact hne (by simp)
      obtain ⟨e, he, ht, hs⟩ := remCnt_pos_elim E done x hrem
      refine ⟨e.source, List.mem_filter.2 ⟨(hV e he).1, by simpa using hs⟩,
        ⟨e, he, rfl, ht⟩⟩
    obtain ⟨w, hw⟩ := exists_cycle_of_all_pred E _ hSne hpred
    exact hacyc w hw
  intro fuel
  induction fuel with
  | zero =>
    intro q d done hm hB hready
    have hq : q = [] := by
      have : q.length = 0 := by omega
      exact List.length_eq_zero.1 this
    subst hq
    rw [show kahnF g 0 [] d = [] from rfl]
    intro v hv
    rw [List.append_nil]
    exact hleaf d done hB hready v hv
  | succ fuel ih =>
    intro q d done hm hB hready
    match q with
    | [] =>
      rw [show kahnF g (fuel + 1) [] d = [] from rfl]
      intro v hv
      rw [List.append_nil]
      exact hleaf d done hB hready v hv
    | n :: rest =>
      rw [show kahnF g (fuel + 1) (n :: rest) d
          = n :: kahnF g fuel (kahnStep (lookupD g n []) d rest).2
              (kahnStep (lookupD g n []) d rest).1 from rfl]
      have hn_done : n ∉ done := hB.q_disj n (List.mem_cons_self ..)
      have hdn₁ : (done ++ [n]).Nodup := by
        rw [List.nodup_append]
        exact ⟨hB.done_nodup, List.nodup_singleton n, by
          intro x hx hx₁
          rw [List.mem_singleton] at hx₁
          subst hx₁
          exact hn_done hx⟩
      have hmid := step_in E V g hadj done rest d n hB hready
      obtain ⟨hout, hmem⟩ := kahnStep_inv E V (done ++ [n]) (lookupD g n []) d rest hmid
      have hB₁ := step_out E V (done ++ [n]) _ _ hdn₁ hout
      have hm₁ : (kahnStep (lookupD g n []) d rest).2.length
          + idegSum (kahnStep (lookupD g n []) d rest).1 ≤ fuel := by
        have := kahnStep_measure (lookupD g n []) d rest
        have hq : (n :: rest).length = rest.length + 1 := by simp
        omega
      have hready₁ := hout.ready
      have := ih _ _ _ hm₁ hB₁ hready₁
      intro v hv
      have hmem₁ := this v hv
      rw [show (done ++ [n]) ++ kahnF g fuel (kahnStep (lookupD g n []) d rest).2
            (kahnStep (lookupD g n []) d rest).1
          = done ++ n :: kahnF g fuel (kahnStep (lookupD g n []) d rest).2
            (kahnStep (lookupD g n []) d rest).1 from by simp] at hmem₁
      exact hmem₁

theorem flow_init_BInv (flow : FlowData) :
    BInv flow.edges [] (zeroQueue (buildGraph flow.nodes flow.edges).2.1)
      (buildGraph flow.nodes flow.edges).2.1 :=
  { count_eq := buildGraph_indeg flow.nodes flow.edges
    done_nodup := List.nodup_nil
    q_nodup := zeroQueue_nodup _ (buildGraph_indeg_nodup flow.nodes flow.edges)
    q_disj := by simp
    q_zero := fun x hx =>
      ((mem_zeroQueue_iff _ (buildGraph_indeg_nodup flow.nodes flow.edges) x).1 hx).2
    done_zero := by simp }

theorem executionOrder_eq (flow : FlowData) :
    executionOrder flow
      = kahnF (buildGraph flow.nodes flow.edges).1
          ((zeroQueue (buildGraph flow.nodes flow.edges).2.1).length
            + idegSum (buildGraph flow.nodes flow.edges).2.1)
          (zeroQueue (buildGraph flow.nodes flow.edges).2.1)
          (buildGraph flow.nodes flow.edges).2.1 := rfl

theorem executionOrder_nodup (flow : FlowData) : (executionOrder flow).Nodup := by
  rw [executionOrder_eq]
  have h := kahnF_run flow.edges (buildGraph flow.nodes flow.edges).1
    (buildGraph_adj flow.nodes flow.edges) _ _ _ [] (Nat.le_refl _)
    (flow_init_BInv flow) (by simp)
  simpa using h.1

theorem executionOrder_prec (flow : FlowData) :
    ∀ e ∈ flow.edges, e.target ∈ executionOrder flow →
      Precedes (executionOrder flow) e.source e.target := by
  rw [executionOrder_eq]
  have h := kahnF_run flow.edges (buildGraph flow.nodes flow.edges).1
    (buildGraph_adj flow.nodes flow.edges) _ _ _ [] (Nat.le_refl _)
    (flow_init_BInv flow) (by simp)
  simpa using h.2.2

theorem executionOrder_mem_elim (flow : FlowData) :
    ∀ x ∈ executionOrder flow,
      x ∈ zeroQueue (buildGraph flow.nodes flow.edges).2.1
        ∨ ∃ e ∈ flow.edges, e.target = x := by
  rw [executionOrder_eq]
  have h := kahnF_run flow.edges (buildGraph flow.nodes flow.edges).1
    (buildGraph_adj flow.nodes flow.edges) _ _ _ [] (Nat.le_refl _)
    (flow_init_BInv flow) (by simp)
  exact h.2.1

theorem executionOrder_ready (flow : FlowData) :
    ∀ v ∈ flow.nodes.map (·.id), v ∉ ([] : List String) →
      v ∉ zeroQueue (buildGraph flow.nodes flow.edges).2.1 →
      lookupD (buildGraph flow.nodes flow.edges).2.1 v 0 ≠ 0 := by
  intro v hv _ hvq h0
  refine hvq ((mem_zeroQueue_iff _ (buildGraph_indeg_nodup flow.nodes flow.edges) v).2
    ⟨?_, h0⟩)
  exact (buildGraph_indeg_keys flow.nodes flow.edges v).2 (Or.inr hv)

theorem executionOrder_complete (flow : FlowData)
    (hep : ∀ e ∈ flow.edges, e.source ∈ flow.nodes.map (·.id)
      ∧ e.target ∈ flow.nodes.map (·.id))
    (hacyc : ∀ w, ¬Relation.TransGen (hasEdge flow.edges) w w) :
    ∀ v ∈ flow.nodes.map (·.id), v ∈ executionOrder flow := by
  rw [executionOrder_eq]
  have h := kahnF_complete flow.edges (flow.nodes.map (·.id))
    (buildGraph flow.nodes flow.edges).1 (buildGraph_adj flow.nodes flow.edges)
    hep hacyc _ _ _ [] (Nat.le_refl _) (flow_init_BInv flow)
    (executionOrder_ready flow)
  simpa using h

theorem executionOrder_sub (flow : FlowData)
    (hep : ∀ e ∈ flow.edges, e.source ∈ flow.nodes.map (·.id)
      ∧ e.target ∈ flow.nodes.map (·.id)) :
    ∀ x ∈ executionOrder flow, x ∈ flow.nodes.map (·.id) := by
  intro x hx
  rcases executionOrder_mem_elim flow x hx with h | h
  · have hk := (mem_zeroQueue_iff _ (buildGraph_indeg_nodup flow.nodes flow.edges) x).1 h
    rcases (buildGraph_indeg_keys flow.nodes flow.edges x).1 hk.1 with h₁ | h₁
    · obtain ⟨e, he, ht⟩ := h₁
      exact ht ▸ (hep e he).2
    · exact h₁
  · obtain ⟨e, he, ht⟩ := h
    exact ht ▸ (hep e he).2

/-- With an order-embedding into the naturals along every edge, the edge
relation has no cycles; used to discharge acyclicity for concrete graphs. -/
theorem rank_no_cycle (E : List EdgeData) (f : String → Nat)
    (h : ∀ e ∈ E, f e.source < f e.target) :
    ∀ w, ¬Relation.TransGen (hasEdge E) w w := by
  have hmono : ∀ a b, Relation.TransGen (hasEdge E) a b → f a < f b := by
    intro a b hab
    induction hab with
    | single h₁ =>
      obtain ⟨e, he, hs, ht⟩ := h₁
      exact hs ▸ ht ▸ h e he
    | tail _ h₁ ih =>
      obtain ⟨e, he, hs, ht⟩ := h₁
      have := h e he
      rw [hs] at this
      rw [← ht]
      omega
  intro w hw
  exact Nat.lt_irrefl _ (hmono w w hw)

/-- Claim C1: for every acyclic graph (node list with unique ids, edge list
whose endpoints are all declared node ids), the execution order produced by
`build_graph` followed by `topological_sort` contains every node exactly
once, and for every edge (s, t) the source s appears strictly before the
target t in the order. -/
theorem claim_C1_topological_order (flow : FlowData)
    (hids : (flow.nodes.map (·.id)).Nodup)
    (hep : ∀ e ∈ flow.edges, e.source ∈ flow.nodes.map (·.id)
      ∧ e.target ∈ flow.nodes.map (·.id))
    (hacyc : ∀ w, ¬Relation.TransGen (hasEdge flow.edges) w w) :
    (∀ n ∈ flow.nodes, (executionOrder flow).count n.id = 1)
      ∧ (executionOrder flow).length = flow.nodes.length
      ∧ ∀ e ∈ flow.edges, Precedes (executionOrder flow) e.source e.target := by
  have hnd := executionOrder_nodup flow
  have hcomp := executionOrder_complete flow hep hacyc
  have hsub := executionOrder_sub flow hep
  refine ⟨?_, ?_, ?_⟩
  · intro n hn
    exact List.count_eq_one_of_mem hnd (hcomp n.id (List.mem_map_of_mem (·.id) hn))
  · have hperm : (executionOrder flow).Perm (flow.nodes.map (·.id)) :=
      (List.perm_ext_iff_of_nodup hnd hids).2
        (fun a => ⟨hsub a, hcomp a⟩)
    rw [hperm.length_eq, List.length_map]
  · intro e he
    exact executionOrder_prec flow e he (hcomp e.target (hep e he).2)

/-- Concrete three-node chain used by the C1 witness. -/
def flowChain : FlowData :=
  ⟨"w", "chain",
   [⟨"a", "start", []⟩, ⟨"b", "prompt", []⟩, ⟨"c", "end", []⟩],
   [⟨"e1", "a", "b", none, none⟩, ⟨"e2", "b", "c", none, none⟩]⟩

theorem claim_C1_topological_order_witness :
    (∀ n ∈ flowChain.nodes, (executionOrder flowChain).count n.id = 1)
      ∧ (executionOrder flowChain).length = flowChain.nodes.length
      ∧ ∀ e ∈ flowChain.edges, Precedes (executionOrder flowChain) e.source e.target :=
  claim_C1_topological_order flowChain (by decide) (by decide)
    (rank_no_cycle _ (fun s => if s = "a" then 0 else if s = "b" then 1 else 2) (by
      intro e he
      fin_cases he <;> decide))

/-- A fixed environment for concrete runs: no API key configured, and
capabilities that fault if ever consulted. -/
def envFail : Env :=
  ⟨none, fun _ _ => .error "unreachable", fun _ _ _ => .error "unreachable"⟩

/-- Flow with an isolated start node and a two-node directed cycle. -/
def flowCyc : FlowData :=
  ⟨"f", "cyc",
   [⟨"a", "start", []⟩, ⟨"b", "end", []⟩, ⟨"c", "end", []⟩],
   [⟨"e1", "b", "c", none, none⟩, ⟨"e2", "c", "b", none, none⟩]⟩

/-- Claim C2, evaluated at a failing input: on a graph with a directed cycle
the engine does not reject the run or signal the cycle; `topological_sort`
silently truncates the order to the acyclic part, `execute_flow` executes
node `a` and returns a normal result map with no error. -/
theorem claim_C2_cycle_not_rejected :
    executionOrder flowCyc = ["a"]
      ∧ executeFlow envFail flowCyc = .ok [("a", [("output", .str "Started")])] :=
  ⟨rfl, rfl⟩

/-- Flow whose single edge has an undeclared source id `u`. -/
def flowBadSrc : FlowData :=
  ⟨"f", "badsrc",
   [⟨"a", "start", []⟩, ⟨"b", "end", []⟩],
   [⟨"e1", "u", "b", none, none⟩]⟩

/-- Flow whose single edge has an undeclared target id `x`. -/
def flowBadTgt : FlowData :=
  ⟨"f", "badtgt",
   [⟨"a", "start", []⟩],
   [⟨"e1", "a", "x", none, none⟩]⟩

/-- Claim C3, evaluated at failing inputs: an edge whose source id is
undeclared produces no error at all — the run completes normally with node
`b` silently missing; an edge whose target id is undeclared raises a
`KeyError` escaping `execute_flow`, but only after node `a` has already
executed (its order is `["a", "x"]`), not before any node executes. -/
theorem claim_C3_unknown_edge_not_fatal :
    (executionOrder flowBadSrc = ["a"]
      ∧ executeFlow envFail flowBadSrc = .ok [("a", [("output", .str "Started")])])
      ∧ (executionOrder flowBadTgt = ["a", "x"]
        ∧ executeFlow envFail flowBadTgt = .error "KeyError: x") :=
  ⟨⟨rfl, rfl⟩, ⟨rfl, rfl⟩⟩

theorem runNodes_nil (execOf : NodeData → Dict → Except String Dict)
    (E : List EdgeData) (nm : List (String × NodeData))
    (r : List (String × Dict)) (o : List (String × Value)) :
    runNodes execOf E nm [] r o = .ok (r, o) := rfl

theorem runNodes_cons (execOf : NodeData → Dict → Except String Dict)
    (E : List EdgeData) (nm : List (String × NodeData)) (nid : String)
    (rest : List String) (r : List (String × Dict)) (o : List (String × Value)) :
    runNodes execOf E nm (nid :: rest) r o
      = match lookupOpt nm nid with
        | none => .error ("KeyError: " ++ nid)
        | some nd =>
          if knownType nd.type then
            match execOf nd (gatherInputs E o nid) with
            | .ok output =>
              runNodes execOf E nm rest (upsert r nid output)
                (upsert o nid (primaryOut output))
            | .error msg =>
              runNodes execOf E nm rest (upsert r nid [("error", .str msg)]) o
          else
            runNodes execOf E nm rest
              (upsert r nid [("error", .str ("Unknown node type: " ++ nd.type))]) o := rfl

theorem runNodes_cons_missing (execOf : NodeData → Dict → Except String Dict)
    (E : List EdgeData) (nm : List (String × NodeData)) (nid : String)
    (rest : List String) (r : List (String × Dict)) (o : List (String × Value))
    (hnd : lookupOpt nm nid = none) :
    runNodes execOf E nm (nid :: rest) r o = .error ("KeyError: " ++ nid) := by
  rw [runNodes_cons, hnd]

theorem runNodes_cons_found (execOf : NodeData → Dict → Except String Dict)
    (E : List EdgeData) (nm : List (String × NodeData)) (nid : String)
    (rest : List String) (r : List (String × Dict)) (o : List (String × Value))
    (nd : NodeData) (hnd : lookupOpt nm nid = some nd) :
    runNodes execOf E nm (nid :: rest) r o
      = if knownType nd.type then
          match execOf nd (gatherInputs E o nid) with
          | .ok output =>
            runNodes execOf E nm rest (upsert r nid output)
              (upsert o nid (primaryOut output))
          | .error msg =>
            runNodes execOf E nm rest (upsert r nid [("error", .str msg)]) o
        else
          runNodes execOf E nm rest
            (upsert r nid [("error", .str ("Unknown node type: " ++ nd.type))]) o := by
  rw [runNodes_cons, hnd]

theorem runNodes_ok (execOf : NodeData → Dict → Except String Dict)
    (E : List EdgeData) (nm : List (String × NodeData)) :
    ∀ (ids : List String) (r : List (String × Dict)) (o : List (String × Value)),
      (∀ i ∈ ids, (lookupOpt nm i).isSome) →
      ∃ pr, runNodes execOf E nm ids r o = .ok pr := by
  intro ids
  induction ids with
  | nil => intro r o _; exact ⟨(r, o), rfl⟩
  | cons nid rest ih =>
    intro r o hall
    rcases hnd : lookupOpt nm nid with _ | nd
    · exact absurd (hall nid (List.mem_cons_self ..)) (by simp [hnd])
    · rw [runNodes_cons_found execOf E nm nid rest r o nd hnd]
      have hrest : ∀ i ∈ rest, (lookupOpt nm i).isSome :=
        fun i hi => hall i (List.mem_cons_of_mem _ hi)
      by_cases hkt : knownType nd.type
      · rw [if_pos hkt]
        rcases hex : execOf nd (gatherInputs E o nid) with msg | output
        · exact ih _ _ hrest
        · exact ih _ _ hrest
      · rw [if_neg hkt]
        exact ih _ _ hrest

theorem runNodes_mono (execOf : NodeData → Dict → Except String Dict)
    (E : List EdgeData) (nm : List (String × NodeData)) :
    ∀ (ids : List String) (r : List (String × Dict)) (o : List (String × Value)) pr,
      runNodes execOf E nm ids r o = .ok pr →
      ∀ x, (lookupOpt r x).isSome → (lookupOpt pr.1 x).isSome := by
  intro ids
  induction ids with
  | nil =>
    intro r o pr h x hx
    rw [runNodes_nil] at h
    cases h
    exact hx
  | cons nid rest ih =>
    intro r o pr h x hx
    rcases hnd : lookupOpt nm nid with _ | nd
    · rw [runNodes_cons_missing execOf E nm nid rest r o hnd] at h
      exact absurd h (by simp)
    · rw [runNodes_cons_found execOf E nm nid rest r o nd hnd] at h
      have hup : ∀ (v : Dict), (lookupOpt (upsert r nid v) x).isSome := by
        intro v
        by_cases hxe : x = nid
        · subst hxe
          simp [lookupOpt_upsert_self]
        · rw [lookupOpt_upsert_ne _ _ _ _ hxe]
          exact hx
      by_cases hkt : knownType nd.type
      · rw [if_pos hkt] at h
        rcases hex : execOf nd (gatherInputs E o nid) with msg | output
        · rw [hex] at h
          exact ih _ _ _ h x (hup _)
        · rw [hex] at h
          exact ih _ _ _ h x (hup _)
      · rw [if_neg hkt] at h
        exact ih _ _ _ h x (hup _)

theorem runNodes_all_some (execOf : NodeData → Dict → Except String Dict)
    (E : List EdgeData) (nm : List (String × NodeData)) :
    ∀ (ids : List String) (r : List (String × Dict)) (o : List (String × Value)) pr,
      runNodes execOf E nm ids r o = .ok pr →
      ∀ i ∈ ids, (lookupOpt pr.1 i).isSome := by
  intro ids
  induction ids with
  | nil => intro r o pr _ i hi; exact absurd hi (List.not_mem_nil i)
  | cons nid rest ih =>
    intro r o pr h i hi
    rcases hnd : lookupOpt nm nid with _ | nd
    · rw [runNodes_cons_missing execOf E nm nid rest r o hnd] at h
      exact absurd h (by simp)
    · rw [runNodes_cons_found execOf E nm nid rest r o nd hnd] at h
      rcases List.mem_cons.1 hi with hieq | himem
      · subst hieq
        have hself : ∀ (v : Dict), (lookupOpt (upsert r i v) i).isSome := by
          intro v
          simp [lookupOpt_upsert_self]
        by_cases hkt : knownType nd.type
        · rw [if_pos hkt] at h
          rcases hex : execOf nd (gatherInputs E o i) with msg | output
          · rw [hex] at h
            exact runNodes_mono execOf E nm rest _ _ pr h i (hself _)
          · rw [hex] at h
            exact runNodes_mono execOf E nm rest _ _ pr h i (hself _)
        · rw [if_neg hkt] at h
          exact runNodes_mono execOf E nm rest _ _ pr h i (hself _)
      · by_cases hkt : knownType nd.type
        · rw [if_pos hkt] at h
          rcases hex : execOf nd (gatherInputs E o nid) with msg | output
          · rw [hex] at h
            exact ih _ _ _ h i himem
          · rw [hex] at h
            exact ih _ _ _ h i himem
        · rw [if_neg hkt] at h
          exact ih _ _ _ h i himem

theorem runNodes_preserve (execOf : NodeData → Dict → Except String Dict)
    (E : List EdgeData) (nm : List (String × NodeData)) :
    ∀ (ids : List String) (r : List (String × Dict)) (o : List (String × Value)) pr,
      runNodes execOf E nm ids r o = .ok pr →
      ∀ x, x ∉ ids → lookupOpt pr.1 x = lookupOpt r x := by
  intro ids
  induction ids with
  | nil =>
    intro r o pr h x _
    rw [runNodes_nil] at h
    cases h
    rfl
  | cons nid rest ih =>
    intro r o pr h x hx
    rw [List.mem_cons] at hx
    push_neg at hx
    rcases hnd : lookupOpt nm nid with _ | nd
    · rw [runNodes_cons_missing execOf E nm nid rest r o hnd] at h
      exact absurd h (by simp)
    · rw [runNodes_cons_found execOf E nm nid rest r o nd hnd] at h
      have hpres : ∀ (v : Dict), lookupOpt (upsert r nid v) x = lookupOpt r x :=
        fun v => lookupOpt_upsert_ne _ _ _ _ hx.1
      by_cases hkt : knownType nd.type
      · rw [if_pos hkt] at h
        rcases hex : execOf nd (gatherInputs E o nid) with msg | output
        · rw [hex] at h
          rw [ih _ _ _ h x hx.2, hpres]
        · rw [hex] at h
          rw [ih _ _ _ h x hx.2, hpres]
      · rw [if_neg hkt] at h
        rw [ih _ _ _ h x hx.2, hpres]

theorem runNodes_dom (execOf : NodeData → Dict → Except String Dict)
    (E : List EdgeData) (nm : List (String × NodeData)) :
    ∀ (ids : List String) (r : List (String × Dict)) (o : List (String × Value)) pr,
      runNodes execOf E nm ids r o = .ok pr →
      ∀ x, (lookupOpt pr.1 x).isSome → (lookupOpt r x).isSome ∨ x ∈ ids := by
  intro ids
  induction ids with
  | nil =>
    intro r o pr h x hx
    rw [runNodes_nil] at h
    cases h
    exact Or.inl hx
  | cons nid rest ih =>
    intro r o pr h x hx
    rcases hnd : lookupOpt nm nid with _ | nd
    · rw [runNodes_cons_missing execOf E nm nid rest r o hnd] at h
      exact absurd h (by simp)
    · rw [runNodes_cons_found execOf E nm nid rest r o nd hnd] at h
      have hback : ∀ (v : Dict), (lookupOpt (upsert r nid v) x).isSome →
          (lookupOpt r x).isSome ∨ x = nid := by
        intro v hv
        by_cases hxe : x = nid
        · exact Or.inr hxe
        · rw [lookupOpt_upsert_ne _ _ _ _ hxe] at hv
          exact Or.inl hv
      have hfin : ∀ (v : Dict) o₁,
          runNodes execOf E nm rest (upsert r nid v) o₁ = .ok pr →
          (lookupOpt r x).isSome ∨ x ∈ nid :: rest := by
        intro v o₁ hrun
        rcases ih _ _ _ hrun x hx with h₁ | h₁
        · rcases hback v h₁ with h₂ | h₂
          · exact Or.inl h₂
          · exact Or.inr (h₂ ▸ List.mem_cons_self ..)
        · exact Or.inr (List.mem_cons_of_mem _ h₁)
      by_cases hkt : knownType nd.type
      · rw [if_pos hkt] at h
        rcases hex : execOf nd (gatherInputs E o nid) with msg | output
        · rw [hex] at h
          exact hfin _ _ h
        · rw [hex] at h
          exact hfin _ _ h
      · rw [if_neg hkt] at h
        exact hfin _ _ h

theorem runNodes_append (execOf : NodeData → Dict → Except String Dict)
    (E : List EdgeData) (nm : List (String × NodeData)) :
    ∀ (ids₁ ids₂ : List String) (r : List (String × Dict)) (o : List (String × Value)),
      runNodes execOf E nm (ids₁ ++ ids₂) r o
        = match runNodes execOf E nm ids₁ r o with
          | .ok pr => runNodes execOf E nm ids₂ pr.1 pr.2
          | .error e => .error e := by
  intro ids₁
  induction ids₁ with
  | nil => intro ids₂ r o; rfl
  | cons nid rest ih =>
    intro ids₂ r o
    rw [List.cons_append]
    rcases hnd : lookupOpt nm nid with _ | nd
    · rw [runNodes_cons_missing execOf E nm nid (rest ++ ids₂) r o hnd,
        runNodes_cons_missing execOf E nm nid rest r o hnd]
    · rw [runNodes_cons_found execOf E nm nid (rest ++ ids₂) r o nd hnd,
        runNodes_cons_found execOf E nm nid rest r o nd hnd]
      by_cases hkt : knownType nd.type
      · rw [if_pos hkt, if_pos hkt]
        rcases hex : execOf nd (gatherInputs E o nid) with msg | output
        · exact ih ids₂ _ _
        · exact ih ids₂ _ _
      · rw [if_neg hkt, if_neg hkt]
        exact ih ids₂ _ _

theorem executeFlowG_eq_run (execOf : NodeData → Dict → Except String Dict)
    (flow : FlowData) :
    executeFlowG execOf flow
      = match runNodes execOf flow.edges (buildGraph flow.nodes flow.edges).2.2
            (executionOrder flow) [] [] with
        | .ok pr => .ok pr.1
        | .error e => .error e := rfl

/-- Claim C4: for every scheduled node whose `execute` call raises a fault,
`execute_flow` records a failure marker carrying the fault message under that
node id, does not re-raise, and still processes every remaining node of the
schedule; the whole run returns normally.  Stated over the loop generic in
the dispatched `execute` (the `try`/`except` around `await node.execute`
catches any implementation fault); the hypothesis `hall` says every
scheduled id is in `node_map`, which rules out the unrelated `KeyError`
path. -/
theorem claim_C4_fault_isolated (execOf : NodeData → Dict → Except String Dict)
    (flow : FlowData) (nid : String) (nd : NodeData) (msg : String)
    (hall : ∀ i ∈ executionOrder flow,
      (lookupOpt (buildGraph flow.nodes flow.edges).2.2 i).isSome)
    (hid : nid ∈ executionOrder flow)
    (hnd : lookupOpt (buildGraph flow.nodes flow.edges).2.2 nid = some nd)
    (hkt : knownType nd.type = true)
    (hraise : ∀ ins, execOf nd ins = .error msg) :
    ∃ res, executeFlowG execOf flow = .ok res
      ∧ lookupOpt res nid = some [("error", .str msg)]
      ∧ ∀ i ∈ executionOrder flow, (lookupOpt res i).isSome := by
  obtain ⟨pr, hrun⟩ := runNodes_ok execOf flow.edges
    (buildGraph flow.nodes flow.edges).2.2 (executionOrder flow) [] [] hall
  refine ⟨pr.1, by rw [executeFlowG_eq_run, hrun], ?_, ?_⟩
  · obtain ⟨pre, post, horder⟩ := List.append_of_mem hid
    have hnp : nid ∉ post := by
      have hnodup := executionOrder_nodup flow
      rw [horder] at hnodup
      exact (List.nodup_cons.1 hnodup.of_append_right).1
    have hrun₁ := hrun
    rw [horder, runNodes_append] at hrun₁
    rcases hpre : runNodes execOf flow.edges (buildGraph flow.nodes flow.edges).2.2
        pre [] [] with e | st
    · rw [hpre] at hrun₁
      exact absurd hrun₁ (by simp)
    · rw [hpre] at hrun₁
      have hrun₂ : runNodes execOf flow.edges (buildGraph flow.nodes flow.edges).2.2
          (nid :: post) st.1 st.2 = .ok pr := hrun₁
      rw [runNodes_cons_found execOf flow.edges _ nid post st.1 st.2 nd hnd,
        if_pos hkt, hraise _] at hrun₂
      rw [runNodes_preserve execOf flow.edges _ post _ _ pr hrun₂ nid hnp,
        lookupOpt_upsert_self]
  · exact runNodes_all_some execOf flow.edges _ (executionOrder flow) [] [] pr hrun

/-- Single-node flow used by the C4 witness. -/
def flowSolo : FlowData := ⟨"f", "solo", [⟨"a", "start", []⟩], []⟩

/-- A dispatched execute that always raises. -/
def execBoom : NodeData → Dict → Except String Dict := fun _ _ => .error "boom"

theorem claim_C4_fault_isolated_witness :
    ∃ res, executeFlowG execBoom flowSolo = .ok res
      ∧ lookupOpt res "a" = some [("error", .str "boom")]
      ∧ ∀ i ∈ executionOrder flowSolo, (lookupOpt res i).isSome :=
  claim_C4_fault_isolated execBoom flowSolo "a" ⟨"a", "start", []⟩ "boom"
    (by decide) (by decide) rfl rfl (fun ins => rfl)

/-- Flow with a start node and an unrecognized-kind node. -/
def flowUnk : FlowData :=
  ⟨"f", "unk",
   [⟨"a", "start", [("initialValue", .str "hi")]⟩, ⟨"x", "mystery", []⟩], []⟩

/-- Claim C5: a node of unrecognized kind gets a failure marker naming the
kind, the run continues, every scheduled node still gets a result entry, and
(concrete conjunct) an unrelated node still produces its normal result. -/
theorem claim_C5_unknown_kind (env : Env) (flow : FlowData) (nid : String)
    (nd : NodeData)
    (hall : ∀ i ∈ executionOrder flow,
      (lookupOpt (buildGraph flow.nodes flow.edges).2.2 i).isSome)
    (hid : nid ∈ executionOrder flow)
    (hnd : lookupOpt (buildGraph flow.nodes flow.edges).2.2 nid = some nd)
    (hunk : knownType nd.type = false) :
    (∃ res, executeFlow env flow = .ok res
      ∧ lookupOpt res nid = some [("error", .str ("Unknown node type: " ++ nd.type))]
      ∧ ∀ i ∈ executionOrder flow, (lookupOpt res i).isSome)
      ∧ executeFlow env flowUnk = .ok
          [("a", [("output", .str "hi")]),
           ("x", [("error", .str "Unknown node type: mystery")])] := by
  refine ⟨?_, rfl⟩
  obtain ⟨pr, hrun⟩ := runNodes_ok (concreteExec env) flow.edges
    (buildGraph flow.nodes flow.edges).2.2 (executionOrder flow) [] [] hall
  refine ⟨pr.1, by rw [show executeFlow env flow
      = executeFlowG (concreteExec env) flow from rfl, executeFlowG_eq_run, hrun], ?_, ?_⟩
  · obtain ⟨pre, post, horder⟩ := List.append_of_mem hid
    have hnp : nid ∉ post := by
      have hnodup := executionOrder_nodup flow
      rw [horder] at hnodup
      exact (List.nodup_cons.1 hnodup.of_append_right).1
    have hrun₁ := hrun
    rw [horder, runNodes_append] at hrun₁
    rcases hpre : runNodes (concreteExec env) flow.edges
        (buildGraph flow.nodes flow.edges).2.2 pre [] [] with e | st
    · rw [hpre] at hrun₁
      exact absurd hrun₁ (by simp)
    · rw [hpre] at hrun₁
      have hrun₂ : runNodes (concreteExec env) flow.edges
          (buildGraph flow.nodes flow.edges).2.2 (nid :: post) st.1 st.2 = .ok pr := hrun₁
      rw [runNodes_cons_found (concreteExec env) flow.edges _ nid post st.1 st.2 nd hnd,
        if_neg (by simp [hunk])] at hrun₂
      rw [runNodes_preserve (concreteExec env) flow.edges _ post _ _ pr hrun₂ nid hnp,
        lookupOpt_upsert_self]
  · exact runNodes_all_some (concreteExec env) flow.edges _ (executionOrder flow)
      [] [] pr hrun

theorem claim_C5_unknown_kind_witness :
    (∃ res, executeFlow envFail flowUnk = .ok res
      ∧ lookupOpt res "x" = some [("error", .str ("Unknown node type: " ++ "mystery"))]
      ∧ ∀ i ∈ executionOrder flowUnk, (lookupOpt res i).isSome)
      ∧ executeFlow envFail flowUnk = .ok
          [("a", [("output", .str "hi")]),
           ("x", [("error", .str "Unknown node type: mystery")])] :=
  claim_C5_unknown_kind envFail flowUnk "x" ⟨"x", "mystery", []⟩
    (by decide) (by decide) rfl rfl

/-- Claim C10: an edge whose source id is neither a declared node id nor the
target of any edge leaves its target node permanently at positive in-degree:
the target is never scheduled, and whenever `execute_flow` returns a result
map at all, that map has no entry for the target — no failure marker records
the omission. -/
theorem claim_C10_dangling_source (flow : FlowData) (e : EdgeData)
    (he : e ∈ flow.edges)
    (hsrc : e.source ∉ flow.nodes.map (·.id))
    (hnt : ∀ e₂ ∈ flow.edges, e₂.target ≠ e.source) :
    e.target ∉ executionOrder flow
      ∧ ∀ (execOf : NodeData → Dict → Except String Dict) res,
          executeFlowG execOf flow = .ok res → lookupOpt res e.target = none := by
  have hu_q : e.source ∉ zeroQueue (buildGraph flow.nodes flow.edges).2.1 := by
    intro hmem
    have hk := ((mem_zeroQueue_iff _
      (buildGraph_indeg_nodup flow.nodes flow.edges) _).1 hmem).1
    rcases (buildGraph_indeg_keys flow.nodes flow.edges _).1 hk with ⟨e₂, he₂, ht₂⟩ | h
    · exact hnt e₂ he₂ ht₂
    · exact hsrc h
  have hnotin : e.target ∉ executionOrder flow := by
    rw [executionOrder_eq]
    exact kahnF_skip flow.edges _ (buildGraph_adj flow.nodes flow.edges)
      e.source e.target hnt ⟨e, he, rfl, rfl⟩ _ _ _ []
      (flow_init_BInv flow) hu_q (List.not_mem_nil _)
  refine ⟨hnotin, ?_⟩
  intro execOf res hres
  rcases hrun : runNodes execOf flow.edges (buildGraph flow.nodes flow.edges).2.2
      (executionOrder flow) [] [] with e₁ | pr
  · rw [executeFlowG_eq_run, hrun] at hres
    exact absurd hres (by simp)
  · rw [executeFlowG_eq_run, hrun] at hres
    have hres₁ : pr.1 = res := by
      simpa using hres
    rcases hl : lookupOpt res e.target with _ | v
    · rfl
    · have hsome : (lookupOpt pr.1 e.target).isSome := by
        rw [hres₁, hl]
        rfl
      rcases runNodes_dom execOf flow.edges _ (executionOrder flow) [] [] pr hrun
          e.target hsome with h | h
      · exact absurd h (by simp [lookupOpt])
      · exact absurd h hnotin

theorem claim_C10_dangling_source_witness :
    ("b" ∉ executionOrder flowBadSrc
      ∧ ∀ (execOf : NodeData → Dict → Except String Dict) res,
          executeFlowG execOf flowBadSrc = .ok res → lookupOpt res "b" = none)
      ∧ executeFlow envFail flowBadSrc = .ok [("a", [("output", .str "Started")])] :=
  ⟨claim_C10_dangling_source flowBadSrc ⟨"e1", "u", "b", none, none⟩
    (List.mem_cons_self ..) (by decide) (by decide), rfl⟩

/-- The last edge of the list that would bind port `k` of node `nid`:
it targets `nid`, its source has a cached output, and its port key resolves
to `k` (specification-side selector for claim C6). -/
def lastIncoming (edges : List EdgeData) (outs : List (String × Value))
    (nid k : String) : Option EdgeData :=
  (edges.filter (fun e =>
    decide (e.target = nid ∧ (lookupOpt outs e.source).isSome
      ∧ handleKey e.sourceHandle = k))).getLast?

/-- Claim C6: the inputs mapping of a node is built by scanning the edge
list in order, binding the cached output of each already-executed source
under the edge source handle (falling back to "input" for an absent
handle — the engine also falls back for an empty-string handle, which the
`handleKey` definition records); on port-key collisions the edge occurring
later in edge-list order wins.  Stated as: the bound value of port `k` is
exactly the cached output of the source of the last matching edge. -/
theorem claim_C6_input_aggregation (edges : List EdgeData)
    (outs : List (String × Value)) (nid k : String) :
    handleKey none = "input"
      ∧ lookupOpt (gatherInputs edges outs nid) k
          = (lastIncoming edges outs nid k).bind (fun e => lookupOpt outs e.source) := by
  refine ⟨rfl, ?_⟩
  induction edges using List.reverseRecOn with
  | nil => rfl
  | append_singleton es e ih =>
    rw [show gatherInputs (es ++ [e]) outs nid
        = gatherStep outs nid (gatherInputs es outs nid) e from by
      rw [gatherInputs, gatherInputs, List.foldl_append, List.foldl_cons, List.foldl_nil]]
    rw [show lastIncoming (es ++ [e]) outs nid k
        = ((es.filter (fun e =>
            decide (e.target = nid ∧ (lookupOpt outs e.source).isSome
              ∧ handleKey e.sourceHandle = k)))
          ++ ([e].filter (fun e =>
            decide (e.target = nid ∧ (lookupOpt outs e.source).isSome
              ∧ handleKey e.sourceHandle = k)))).getLast? from by
      rw [lastIncoming, List.filter_append]]
    by_cases ht : e.target = nid
    · rcases hs : lookupOpt outs e.source with _ | v
      · have hpred : ([e].filter (fun e =>
            decide (e.target = nid ∧ (lookupOpt outs e.source).isSome
              ∧ handleKey e.sourceHandle = k))) = [] := by
          simp [List.filter_singleton, hs]
        rw [hpred, List.append_nil, show gatherStep outs nid (gatherInputs es outs nid) e
            = gatherInputs es outs nid from by simp [gatherStep, ht, hs]]
        exact ih
      · by_cases hk : handleKey e.sourceHandle = k
        · have hpred : ([e].filter (fun e =>
              decide (e.target = nid ∧ (lookupOpt outs e.source).isSome
                ∧ handleKey e.sourceHandle = k))) = [e] := by
            simp [List.filter_singleton, ht, hs, hk]
          rw [hpred, List.getLast?_concat]
          rw [show gatherStep outs nid (gatherInputs es outs nid) e
              = upsert (gatherInputs es outs nid) (handleKey e.sourceHandle) v from by
            simp [gatherStep, ht, hs]]
          rw [hk, lookupOpt_upsert_self]
          simp [hs]
        · have hpred : ([e].filter (fun e =>
              decide (e.target = nid ∧ (lookupOpt outs e.source).isSome
                ∧ handleKey e.sourceHandle = k))) = [] := by
            simp [List.filter_singleton, hk]
          rw [hpred, List.append_nil, show gatherStep outs nid (gatherInputs es outs nid) e
              = upsert (gatherInputs es outs nid) (handleKey e.sourceHandle) v from by
            simp [gatherStep, ht, hs]]
          rw [lookupOpt_upsert_ne _ _ _ _ (fun h => hk (Eq.symm h))]
          exact ih
    · have hpred : ([e].filter (fun e =>
          decide (e.target = nid ∧ (lookupOpt outs e.source).isSome
            ∧ handleKey e.sourceHandle = k))) = [] := by
        simp [List.filter_singleton, ht]
      rw [hpred, List.append_nil, show gatherStep outs nid (gatherInputs es outs nid) e
          = gatherInputs es outs nid from by simp [gatherStep, ht]]
      exact ih

theorem replaceLF_no_occur (rep pat : List Char) :
    ∀ (fuel : Nat) (s : List Char), occursL pat s = false →
      replaceLF rep pat fuel s = s := by
  intro fuel
  induction fuel with
  | zero => intro s _; rfl
  | succ fuel ih =>
    intro s hocc
    match s with
    | [] => rfl
    | c :: s₁ =>
      rw [occursL] at hocc
      have hlw : leadsWith pat (c :: s₁) = false := by
        rcases Bool.or_eq_false_iff.1 hocc with ⟨h₁, _⟩
        exact h₁
      have hocc₁ : occursL pat s₁ = false := by
        rcases Bool.or_eq_false_iff.1 hocc with ⟨_, h₂⟩
        exact h₂
      rw [show replaceLF rep pat (fuel + 1) (c :: s₁)
          = if pat ≠ [] ∧ leadsWith pat (c :: s₁) then
              rep ++ replaceLF rep pat fuel (s₁.drop (pat.length - 1))
            else c :: replaceLF rep pat fuel s₁ from rfl]
      rw [if_neg (by simp [hlw])]
      rw [ih s₁ hocc₁]

theorem strReplace_no_occur (s pat rep : String) (h : occursIn pat s = false) :
    strReplace s pat rep = s := by
  rw [strReplace, replaceL, replaceLF_no_occur _ _ _ _ h]
  cases s
  rfl

theorem substPass_no_occur (m : Dict) (t : String)
    (h : ∀ kv ∈ m, occursIn ("\x7b" ++ kv.1 ++ "\x7d") t = false) :
    substPass m t = t := by
  induction m with
  | nil => rfl
  | cons kv rest ih =>
    rw [substPass, List.foldl_cons,
      strReplace_no_occur t _ _ (h kv (List.mem_cons_self ..))]
    exact ih (fun kv₁ h₁ => h kv₁ (List.mem_cons_of_mem _ h₁))

/-- Claim C7: `PromptNode.execute` returns under "output" the template after
two passes of literal token substitution — first every configured variable,
then every aggregated input — with tokens matched by neither pass left
verbatim (an unmatched template is returned unchanged, and the concrete
conjuncts show an unmatched token surviving next to a substituted one); in
particular template "Hello {name}" with variable name = "World" and no
matching input yields "Hello World". -/
theorem claim_C7_prompt_substitution :
    (∀ (data inputs : Dict) (t : String) (vars : List (String × Value)),
      lookupD data "template" (.str "") = .str t →
      lookupD data "variables" (.dict []) = .dict vars →
      promptExecute data inputs
        = .ok [("output", .str (substPass inputs (substPass vars t)))])
      ∧ (∀ (t : String) (vars inputs : Dict),
        (∀ kv ∈ vars, occursIn ("\x7b" ++ kv.1 ++ "\x7d") t = false) →
        (∀ kv ∈ inputs, occursIn ("\x7b" ++ kv.1 ++ "\x7d") t = false) →
        substPass inputs (substPass vars t) = t)
      ∧ promptExecute [("template", .str "Hello \x7bname\x7d"),
          ("variables", .dict [("name", .str "World")])] []
          = .ok [("output", .str "Hello World")]
      ∧ promptExecute [("template", .str "Hello \x7bname\x7d and \x7bother\x7d"),
          ("variables", .dict [("name", .str "World")])] []
          = .ok [("output", .str "Hello World and \x7bother\x7d")] := by
  refine ⟨?_, ?_, rfl, rfl⟩
  · intro data inputs t vars hT hV
    unfold promptExecute
    rw [hT, hV]
  · intro t vars inputs hv hi
    rw [substPass_no_occur vars t hv]
    exact substPass_no_occur inputs t hi

theorem claim_C7_prompt_substitution_witness :
    promptExecute [("template", .str "ab"), ("variables", .dict [("k", .str "v")])]
        [("j", .str "w")]
        = .ok [("output", .str (substPass [("j", .str "w")]
            (substPass [("k", .str "v")] "ab")))]
      ∧ substPass [("j", .str "w")] (substPass [("k", .str "v")] "ab") = "ab" :=
  ⟨claim_C7_prompt_substitution.1 _ _ "ab" [("k", .str "v")] rfl rfl,
   claim_C7_prompt_substitution.2.1 "ab" [("k", .str "v")] [("j", .str "w")]
     (by decide) (by decide)⟩

/-- Claim C8: any fault raised inside the user-supplied code of a Function
node (the oracle `userFn` covers both compiling and running the fragment) is
caught by `execute`, which returns a success result whose output is an
error-describing string — never a raised fault, never a failure marker. -/
theorem claim_C8_function_fault_soft (env : Env) (data inputs : Dict) (msg : String)
    (h : env.userFn (pyStr (lookupD data "code" (.str "return input_data")))
        (lookupD inputs "input" (.str "")) inputs = .error msg) :
    functionExecute env data inputs = [("output", .str ("Error: " ++ msg))]
      ∧ ∀ (nid : String),
          concreteExec env ⟨nid, "function", data⟩ inputs
            = .ok [("output", .str ("Error: " ++ msg))] := by
  have h1 : functionExecute env data inputs = [("output", .str ("Error: " ++ msg))] := by
    show (match env.userFn (pyStr (lookupD data "code" (.str "return input_data")))
        (lookupD inputs "input" (.str "")) inputs with
      | .ok v => [("output", v)]
      | .error e => [("output", Value.str ("Error: " ++ e))]) = _
    rw [h]
  refine ⟨h1, fun nid => ?_⟩
  rw [show concreteExec env ⟨nid, "function", data⟩ inputs
      = .ok (functionExecute env data inputs) from rfl, h1]

/-- Environment whose user-code capability always raises. -/
def envBoom : Env :=
  ⟨none, fun _ _ => .error "x", fun _ _ _ => .error "boom"⟩

theorem claim_C8_function_fault_soft_witness :
    functionExecute envBoom [] [] = [("output", .str ("Error: " ++ "boom"))]
      ∧ ∀ (nid : String),
          concreteExec envBoom ⟨nid, "function", []⟩ []
            = .ok [("output", .str ("Error: " ++ "boom"))] :=
  claim_C8_function_fault_soft envBoom [] [] "boom" rfl

theorem llmExecute_unfold (env : Env) (data inputs : Dict) :
    llmExecute env data inputs
      = [("output", .str (match env.apiKey with
          | some key =>
            if key ≠ "" then
              match env.llmCall (lookupD data "model" (.str "gpt-3.5-turbo"))
                  (llmPrompt data inputs) with
              | .ok content => content
              | .error e => "LLM Error: " ++ e
            else "Mock LLM response for: " ++ pyStr (llmPrompt data inputs)
          | none => "Mock LLM response for: " ++ pyStr (llmPrompt data inputs)))] := rfl

/-- Claim C9: `LLMNode.execute` never fails the node — it always returns a
success dict whose "output" is a string; with the capability unconfigured
(missing or empty API key, Python truthiness) the output is the
deterministic mock echo of the resolved prompt, and when the capability call
raises the output is the error string; neither case propagates a fault. -/
theorem claim_C9_llm_fail_soft (env : Env) (data inputs : Dict) :
    (∀ (nid : String), concreteExec env ⟨nid, "llm", data⟩ inputs
        = .ok (llmExecute env data inputs))
      ∧ (∃ s, llmExecute env data inputs = [("output", .str s)])
      ∧ (env.apiKey = none ∨ env.apiKey = some "" →
          llmExecute env data inputs
            = [("output",
                .str ("Mock LLM response for: " ++ pyStr (llmPrompt data inputs)))])
      ∧ (∀ key msg, env.apiKey = some key → key ≠ "" →
          env.llmCall (lookupD data "model" (.str "gpt-3.5-turbo"))
              (llmPrompt data inputs) = .error msg →
          llmExecute env data inputs = [("output", .str ("LLM Error: " ++ msg))]) := by
  refine ⟨fun nid => rfl, ⟨_, llmExecute_unfold env data inputs⟩, ?_, ?_⟩
  · rintro (hk | hk) <;> rw [llmExecute_unfold, hk] <;> simp
  · intro key msg hk hke hc
    rw [llmExecute_unfold, hk, hc]
    simp [hke]

/-- Environment with a configured key whose completion call always raises. -/
def envDown : Env :=
  ⟨some "sk", fun _ _ => .error "down", fun _ _ _ => .error "x"⟩

theorem claim_C9_llm_fail_soft_witness :
    llmExecute envFail [] []
        = [("output", .str ("Mock LLM response for: " ++ pyStr (llmPrompt [] [])))]
      ∧ llmExecute envDown [] [] = [("output", .str ("LLM Error: " ++ "down"))]
      ∧ concreteExec envFail ⟨"l", "llm", []⟩ [] = .ok (llmExecute envFail [] []) :=
  ⟨(claim_C9_llm_fail_soft envFail [] []).2.2.1 (Or.inl rfl),
   (claim_C9_llm_fail_soft envDown [] []).2.2.2 "sk" "down" rfl (by decide) rfl,
   (claim_C9_llm_fail_soft envFail [] []).1 "l"⟩
